import Mathlib

/-!
Shallow embedding of the `rust_gcatcirc_lib` crate (codes over a finite
alphabet, their decidability graph and their split graph), together with
proofs and refutations of the specification claims.

Words are modelled as `List Char`; Rust `String` indexing in the sources is
byte-based, which over the one-byte characters actually used coincides with
the character lists used here.  Machine integers (`i32`, `u32`) are modelled
as `Int`/`Nat` with explicit two's-complement wrapping where the source can
overflow.
-/

deriving instance DecidableEq for Except

namespace Gcat

/-- Rust `Iterator::position`: index of the first element satisfying `p`. -/
def position? {α : Type} (p : α → Bool) : List α → Option Nat
  | [] => none
  | a :: as => if p a then some 0 else (position? p as).map (· + 1)

/-- Rust `Vec::dedup`: removes only *consecutive* repeated elements. -/
def dedupConsec {α : Type} [DecidableEq α] : List α → List α
  | [] => []
  | [a] => [a]
  | a :: b :: rest =>
    if a = b then dedupConsec (b :: rest) else a :: dedupConsec (b :: rest)

/-- Boolean lexicographic order on character lists (Rust `String` ordering,
which for the one-byte alphabets used coincides with byte order). -/
def lexLe : List Char → List Char → Bool
  | [], _ => true
  | _ :: _, [] => false
  | a :: as, b :: bs =>
    if a = b then lexLe as bs else decide (a < b)

/-- Rust `Vec::sort`/`sort_by` (stable, ascending); modelled by the stable
insertion sort from Mathlib. -/
def rsort {α : Type} (le : α → α → Prop) [DecidableRel le] (l : List α) : List α :=
  List.insertionSort le l

/-- Error type of the `code` module (`CircCodeErr`). -/
inductive CircCodeErr where
  | EmptyCode
  | EmptyWord
  deriving DecidableEq

/-- The `CircCode` struct: identifier, word list, sorted tuple lengths,
sorted alphabet. -/
structure CircCode where
  id : String
  code : List (List Char)
  tuple_length : List Nat
  alphabet : List Char
  deriving DecidableEq

/-- `CircCode::new_from_vec`.  Note that the source deduplicates with
`Vec::dedup`, which removes only consecutive repetitions. -/
def new_from_vec (code : List (List Char)) : Except CircCodeErr CircCode :=
  if code = [] then .error .EmptyCode else
  let tuple_length := dedupConsec (rsort (· ≤ ·) (code.map List.length))
  if 0 ∈ tuple_length then .error .EmptyWord else
  let deduped := dedupConsec code
  let alphabet := dedupConsec (rsort (· ≤ ·) code.flatten)
  .ok { id := "unknown", code := deduped, tuple_length := tuple_length,
        alphabet := alphabet }

/-- `CircCode::new_from_seq`.  The outer `Option` models divergence from a
normal return: `none` is the panic raised by `step_by(0)` when
`tuple_length = 0` and the emptiness guards have been passed. -/
def new_from_seq (sequence : List Char) (tuple_length : Nat) :
    Option (Except CircCodeErr CircCode) :=
  if sequence = [] then some (.error .EmptyCode) else
  let v := sequence
  let alphabet := dedupConsec (rsort (· ≤ ·) v)
  if tuple_length > v.length then some (.error .EmptyCode) else
  if tuple_length = 0 then none else
  let new_code := (List.range (v.length / tuple_length)).map
    (fun k => (v.drop (k * tuple_length)).take tuple_length)
  some (.ok { id := "unknown", code := dedupConsec new_code,
              tuple_length := [tuple_length], alphabet := alphabet })

/-- The effective per-word offset of `CircCode::shift`:
`(w.len() as i32 + (sh % w.len() as i32)) as usize % w.len()`.
Rust `%` on `i32` is truncated remainder (`Int.tmod`). -/
def shOff (sh : Int) (w : List Char) : Nat :=
  ((w.length : Int) + sh.tmod (w.length : Int)).toNat % w.length

/-- The per-word rotation performed by `CircCode::shift`: the suffix
starting at the effective offset followed by the prefix before it. -/
def shiftWord (sh : Int) (w : List Char) : List Char :=
  w.drop (shOff sh w) ++ w.take (shOff sh w)

/-- `CircCode::shift`: rotates every word independently, replacing only the
`code` field. -/
def shift (c : CircCode) (sh : Int) : CircCode :=
  { c with code := c.code.map (shiftWord sh) }

/-- `PartialEq for CircCode`: equality of the sorted word lists. -/
def circCodeEq (a b : CircCode) : Bool :=
  rsort (fun x y => lexLe x y = true) a.code ==
    rsort (fun x y => lexLe x y = true) b.code

/-! ## The decidability graph (`graph_code` module) -/

/-- The synthetic root symbol. -/
def ROOT : Char := '_'

/-- `CodeGraph::new`: the root-only sequence followed by every word with the
root symbol prepended. -/
def codeGraphE (c : CircCode) : List (List Char) :=
  [ROOT] :: c.code.map (fun w => ROOT :: w)

/-- Lexicographic boolean order on position pairs (Rust tuple ordering). -/
def posLe (a b : Nat × Nat) : Bool :=
  a.1 < b.1 || (a.1 == b.1 && a.2 ≤ b.2)

/-- Rust `pos.sort()` on a two-element array of positions. -/
def sortPair (p q : Nat × Nat) : (Nat × Nat) × (Nat × Nat) :=
  if posLe p q then (p, q) else (q, p)

/-- The `for`-loop shape shared by `reg_is_code` (branching over restart
words) and `start_reg_is_code` (looping over word pairs): runs `f` on each
element, accumulating the ambiguous-sequence list; a `false` verdict is
returned immediately in decide mode (`fap = false`) and remembered in
enumerate mode.  `none` propagates fuel exhaustion. -/
def branchLoop {α : Type} (f : α → List (List Char) → Option (Bool × List (List Char)))
    (fap : Bool) : List α → Bool → List (List Char) → Option (Bool × List (List Char))
  | [], isCode, acc => some (isCode, acc)
  | k :: ks, isCode, acc =>
    match f k acc with
    | none => none
    | some (b, acc') =>
      if b then branchLoop f fap ks isCode acc'
      else if fap then branchLoop f fap ks false acc'
      else some (false, acc')

/-- `CodeGraph::reg_is_code`, with explicit fuel (the Rust recursion is
bounded by the history of sorted position pairs; see the termination
theorem).  Arguments after the fuel: the two walker positions, the history
of sorted position pairs, the `find_all_paths` flag, the shared accumulator
of ambiguous sequences, and the concatenated matched labels. -/
def reg_is_code (e : List (List Char)) :
    Nat → Nat × Nat → Nat × Nat → List ((Nat × Nat) × (Nat × Nat)) → Bool →
    List (List Char) → List Char → Option (Bool × List (List Char))
  | 0, _, _, _, _, _, _ => none
  | fuel + 1, p0, p1, history, fap, acc, path =>
    let sp := sortPair p0 p1
    if sp ∈ history then some (true, acc)
    else
      let history := history ++ [sp]
      if p0 = (0, 0) ∨ (e.getD p0.1 []).length - 1 = p0.2 then
        branchLoop (fun k acc => reg_is_code e fuel (k, 0) p1 history fap acc path)
          fap (List.range' 1 (e.length - 1)) true acc
      else if p1 = (0, 0) ∨ (e.getD p1.1 []).length - 1 = p1.2 then
        branchLoop (fun k acc => reg_is_code e fuel (k, 0) p0 history fap acc path)
          fap (List.range' 1 (e.length - 1)) true acc
      else
        let q0 : Nat × Nat := (p0.1, p0.2 + 1)
        let q1 : Nat × Nat := (p1.1, p1.2 + 1)
        let c0 := (e.getD q0.1 []).getD q0.2 ROOT
        let c1 := (e.getD q1.1 []).getD q1.2 ROOT
        if c0 = c1 then
          let path := path ++ [c0]
          if (e.getD q0.1 []).length - 1 = q0.2 ∧ (e.getD q1.1 []).length - 1 = q1.2 then
            some (false, if fap then acc ++ [path] else acc)
          else
            reg_is_code e fuel q0 q1 history fap acc path
        else some (true, acc)

/-- Number of walker positions of the graph (one per entry of every
root-prefixed sequence). -/
def posCount (e : List (List Char)) : Nat := (e.map List.length).sum

/-- Fuel that provably dominates the recursion depth of `reg_is_code`:
one more than the number of position pairs. -/
def codeFuel (e : List (List Char)) : Nat := posCount e * posCount e + 1

/-- The word-index pairs `(i, j)`, `1 ≤ i < j < e.len`, enumerated by
`start_reg_is_code`. -/
def pairsIdx (e : List (List Char)) : List (Nat × Nat) :=
  (List.range' 1 (e.length - 1 - 1)).flatMap
    (fun i => (List.range' (i + 1) (e.length - (i + 1))).map (fun j => (i, j)))

/-- `CodeGraph::start_reg_is_code`. -/
def start_reg_is_code (e : List (List Char)) (fap : Bool) :
    Option (Bool × List (List Char)) :=
  branchLoop (fun ij acc => reg_is_code e (codeFuel e) (ij.1, 0) (ij.2, 0) [] fap acc [])
    fap (pairsIdx e) true []

/-- `CircCode::is_code` (via `CodeGraph::is_code`). -/
def is_code (c : CircCode) : Option Bool :=
  (start_reg_is_code (codeGraphE c) false).map (·.1)

/-- `CircCode::all_ambiguous_sequences`. -/
def all_ambiguous_sequences (c : CircCode) : Option (Bool × List (List Char)) :=
  start_reg_is_code (codeGraphE c) true

/-! Auxiliary notions used by the theorems about the decidability walk. -/

/-- A position `(a, k)` indexes entry `k` of sequence `a`. -/
def validPos (e : List (List Char)) (p : Nat × Nat) : Prop :=
  p.1 < e.length ∧ p.2 < (e.getD p.1 []).length

instance (e : List (List Char)) (p : Nat × Nat) : Decidable (validPos e p) :=
  inferInstanceAs (Decidable (_ ∧ _))

/-- All valid positions of the graph. -/
def allPositions (e : List (List Char)) : List (Nat × Nat) :=
  (List.range e.length).flatMap
    (fun a => (List.range (e.getD a []).length).map (fun k => (a, k)))

/-- All ordered pairs of valid positions. -/
def allPairs (e : List (List Char)) : List ((Nat × Nat) × (Nat × Nat)) :=
  (allPositions e).product (allPositions e)

/-- The number of valid position pairs not yet recorded in the history:
the quantity that shrinks at every recursive step of `reg_is_code`. -/
def remaining (e : List (List Char)) (history : List ((Nat × Nat) × (Nat × Nat))) : Nat :=
  ((allPairs e).filter (fun x => x ∉ history)).length

/-- The word of the graph sequence at index `i` (the sequence without its
root symbol). -/
def wAt (e : List (List Char)) (i : Nat) : List Char :=
  (e.getD i []).tail

/-- `d` decomposes the sequence `s` into words of `code`. -/
def IsDecomp (code : List (List Char)) (d : List (List Char)) (s : List Char) : Prop :=
  (∀ w ∈ d, w ∈ code) ∧ d.flatten = s

/-- `s` has at least two distinct decompositions into words of `code`. -/
def TwoDistinctDecomps (code : List (List Char)) (s : List Char) : Prop :=
  ∃ d1 d2, IsDecomp code d1 s ∧ IsDecomp code d2 s ∧ d1 ≠ d2

/-- `s` is witnessed by two different index walks through the graph
sequences: two distinct lists of word indices whose words concatenate to
`s`. -/
def TwoWalkDecomps (e : List (List Char)) (s : List Char) : Prop :=
  ∃ us0 us1 : List Nat,
    (∀ u ∈ us0, 1 ≤ u ∧ u < e.length) ∧ (∀ u ∈ us1, 1 ≤ u ∧ u < e.length) ∧
    us0 ≠ us1 ∧
    (us0.map (wAt e)).flatten = s ∧ (us1.map (wAt e)).flatten = s

/-- The invariant of the simultaneous walk: both walkers hold valid
non-root positions, each has consumed a sequence of complete words plus a
prefix of its current word, the two consumed streams are both equal to the
matched path, and the two word-index sequences differ in their first
element (they started on different words). -/
def WalkInv (e : List (List Char)) (p0 p1 : Nat × Nat) (path : List Char) : Prop :=
  1 ≤ p0.1 ∧ validPos e p0 ∧ 1 ≤ p1.1 ∧ validPos e p1 ∧
  ∃ us0 us1 : List Nat,
    (∀ u ∈ us0, 1 ≤ u ∧ u < e.length) ∧ (∀ u ∈ us1, 1 ≤ u ∧ u < e.length) ∧
    path = (us0.map (wAt e)).flatten ++ (wAt e p0.1).take p0.2 ∧
    path = (us1.map (wAt e)).flatten ++ (wAt e p1.1).take p1.2 ∧
    (us0 ++ [p0.1]).head? ≠ (us1 ++ [p1.1]).head?

/-! ## The split graph (`graph_circ` module) -/

/-- Two's-complement wrap-around of an unbounded integer into `i32`
(the behaviour of overflowing Rust arithmetic with overflow checks off). -/
def wrap32 (x : Int) : Int := (x + 2 ^ 31) % 2 ^ 32 - 2 ^ 31

/-- Reinterpretation cast `i32 -> u32`. -/
def u32ofI32 (x : Int) : Nat := (x % 2 ^ 32).toNat

/-- A split-graph vertex: label and derived `i32` index. -/
structure Vertex where
  label : List Char
  index : Int
  deriving DecidableEq

/-- A split-graph edge; `label` is the concatenation of the endpoint labels. -/
structure Edge where
  from_ : Vertex
  to_ : Vertex
  label : List Char
  deriving DecidableEq

/-- `PartialEq for Vertex`: index comparison only. -/
def vEq (a b : Vertex) : Bool := a.index == b.index

/-- `PartialEq for Edge`: endpoint index comparison only. -/
def eEq (a b : Edge) : Bool := a.to_.index == b.to_.index && a.from_.index == b.from_.index

/-- `Vec<Rc<Edge>>` equality: elementwise `Edge` equality. -/
def listEEq (a b : List Edge) : Bool :=
  a.length == b.length && (a.zip b).all (fun p => eEq p.1 p.2)

/-- The accumulator loop of `calculate_idx`: `pos` and `index` are `i32`
values, every arithmetic step wrapping. -/
def calcIdxGo (alphabet : List Char) : List Char → Int → Int → Option Int
  | [], _, index => some index
  | l :: rest, pos, index =>
    match position? (fun c => c = l) alphabet with
    | none => none
    | some i =>
      let pos_val : Int := (i : Int) + 1
      calcIdxGo alphabet rest (wrap32 (pos * ((alphabet.length : Int) + 1)))
        (wrap32 (index + wrap32 (pos_val * pos)))

/-- `elements::calculate_idx`: the label read as a base-`(|alphabet|+1)`
number over 1-indexed alphabet positions, computed in `i32`. -/
def calculate_idx (label : List Char) (alphabet : List Char) : Option Int :=
  calcIdxGo alphabet label 1 0

/-- The exact (overflow-free) value computed by `calculate_idx`,
least-significant digit first. -/
def labelVal (alphabet : List Char) : List Char → Option Nat
  | [] => some 0
  | c :: rest =>
    match position? (fun a => a = c) alphabet with
    | none => none
    | some i => (labelVal alphabet rest).map (fun v => (i + 1) + (alphabet.length + 1) * v)

/-- Error type of the `graph_circ` module. -/
inductive CircGraphErr where
  | VertexErr
  | EmptyCode
  | EdgeErr
  | NoSubErr
  deriving DecidableEq

/-- The split graph `G(X)`. -/
structure CircGraph where
  alphabet : List Char
  v : List Vertex
  e : List Edge
  deriving DecidableEq

/-- `CircGraph::push_vertex`: build the vertex, fail on an off-alphabet
label, and reuse an existing vertex with the same index. -/
def push_vertex (g : CircGraph) (label : List Char) :
    Except CircGraphErr (CircGraph × Vertex) :=
  match calculate_idx label g.alphabet with
  | none => .error .VertexErr
  | some idx =>
    let v1 : Vertex := ⟨label, idx⟩
    match g.v.find? (fun c => vEq c v1) with
    | some v0 => .ok (g, v0)
    | none => .ok ({ g with v := g.v ++ [v1] }, v1)

/-- `CircGraph::push_edge`. -/
def push_edge (g : CircGraph) (v1 v2 : Vertex) : CircGraph :=
  { g with e := g.e ++ [⟨v1, v2, v1.label ++ v2.label⟩] }

/-- `CircGraph::push_tuple`: one edge per proper split point of the word. -/
def push_tuple (g : CircGraph) (w : List Char) : Except CircGraphErr CircGraph :=
  (List.range' 1 (w.length - 1)).foldlM
    (fun g s => do
      let (g, v1) ← push_vertex g (w.take s)
      let (g, v2) ← push_vertex g (w.drop s)
      pure (push_edge g v1 v2))
    g

/-- `CircGraph::new`: push every word, then sort vertices by index and edges
by origin index (stable ascending sorts). -/
def graphNew (x : CircCode) : Except CircGraphErr CircGraph :=
  if x.code = [] then .error .EmptyCode else
  match x.code.foldlM (fun g w => push_tuple g w) (⟨x.alphabet, [], []⟩ : CircGraph) with
  | .error err => .error err
  | .ok g =>
    .ok { g with v := rsort (fun a b => a.index ≤ b.index) g.v,
                 e := rsort (fun a b => a.from_.index ≤ b.from_.index) g.e }

/-- `CircGraph::get_all_outgoing_edges_of_vertices`. -/
def get_all_outgoing_edges_of_vertices (g : CircGraph) (vs : List Vertex) : List Edge :=
  g.e.filter (fun edge => vs.any (fun v => vEq v edge.from_))

/-- `CircGraph::get_path_start_edges`: outgoing edges of the vertices with
no incoming edge. -/
def get_path_start_edges (g : CircGraph) : List Edge :=
  let start_vs := g.v.filter (fun vertex => ¬ g.e.any (fun edge => vEq edge.to_ vertex))
  get_all_outgoing_edges_of_vertices g start_vs

/-- The shared mutable state of the cycle search: the globally visited
edges, the `is_acyclic` flag of the source (true once a cycle was found),
and the collected cyclic paths. -/
structure CycSt where
  visited : List Edge
  flag : Bool
  paths : List (List Edge)
  deriving DecidableEq

/-- First position of the minimum (as `u32`) origin index in a cycle slice
(`res`/`min_idx` fold of the source). -/
def minFromIdx (slice : List Edge) : Nat :=
  (slice.enum.foldl
    (fun st p => if u32ofI32 p.2.from_.index < st.1 then (u32ofI32 p.2.from_.index, p.1) else st)
    (2 ^ 32 - 1, 0)).2

/-- Canonicalisation of a detected cycle: a self-loop stands alone;
otherwise the cyclic slice is rotated to start at the edge with minimal
origin index. -/
def canonCycle (current : Edge) (path : List Edge) (endPos : Option Nat) : List Edge :=
  if vEq current.from_ current.to_ then [current]
  else
    match endPos with
    | some i =>
      let slice := path.drop i
      slice.rotate (minFromIdx slice)
    | none => []

/-- The `for edge in targets` loop of `reg_is_cyclic`: records each target
as visited (if new), recurses, and in decide mode stops at the first cyclic
result; afterwards the current global flag is returned. -/
def targetLoop (f : Edge → CycSt → Option (Bool × CycSt)) (fap : Bool) :
    List Edge → CycSt → Option (Bool × CycSt)
  | [], st => some (st.flag, st)
  | t :: ts, st =>
    let st := if st.visited.any (fun x => eEq x t) then st
              else { st with visited := st.visited ++ [t] }
    match f t st with
    | none => none
    | some (res, st') =>
      if res && !fap then some (true, st') else targetLoop f fap ts st'

/-- `CircGraph::reg_is_cyclic`, with explicit fuel. -/
def reg_is_cyclic (g : CircGraph) :
    Nat → List Edge → Bool → CycSt → Option (Bool × CycSt)
  | 0, _, _, _ => none
  | fuel + 1, current_path, fap, st =>
    if !fap && st.flag then some (true, st)
    else
      match current_path.getLast? with
      | none => some (true, st)
      | some current_pos =>
        let end_pos := position? (fun edge => vEq edge.from_ current_pos.to_) current_path
        if end_pos.isSome || vEq current_pos.from_ current_pos.to_ then
          let st :=
            if fap then
              let c_path := canonCycle current_pos current_path end_pos
              if st.paths.any (fun q => listEEq q c_path) then st
              else { st with paths := st.paths ++ [c_path] }
            else st
          some (true, { st with flag := true })
        else
          let targets := get_all_outgoing_edges_of_vertices g [current_pos.to_]
          targetLoop (fun t st => reg_is_cyclic g fuel (current_path ++ [t]) fap st)
            fap targets st

/-- The outer loop of `start_reg_is_cyclic` over the start edges. -/
def startLoop (f : Edge → CycSt → Option (Bool × CycSt)) (fap : Bool) :
    List Edge → CycSt → Option (Bool × CycSt)
  | [], st => some (st.flag, st)
  | s :: ss, st =>
    if st.visited.any (fun x => eEq x s) then startLoop f fap ss st
    else
      let st := { st with visited := st.visited ++ [s] }
      match f s st with
      | none => none
      | some (res, st') =>
        if res then
          if !fap then some (true, st')
          else startLoop f fap ss { st' with flag := true }
        else startLoop f fap ss st'

/-- Fuel sufficient for the cycle search on graphs whose vertices are
pairwise distinct by index (a path never revisits an origin vertex). -/
def cycFuel (g : CircGraph) : Nat := g.v.length + 2

/-- `CircGraph::start_reg_is_cyclic`. -/
def start_reg_is_cyclic (g : CircGraph) (fap : Bool) : Option (Bool × CycSt) :=
  let start_edges := get_path_start_edges g ++ g.e
  startLoop (fun s st => reg_is_cyclic g (cycFuel g) [s] fap st) fap start_edges
    ⟨[], false, []⟩

/-- `CircGraph::is_cyclic`. -/
def is_cyclic (g : CircGraph) : Option Bool :=
  (start_reg_is_cyclic g false).map (·.1)

/-- `CircGraph::all_cycles`: enumerate mode, cycles sorted ascending by
length (stable). -/
def all_cycles (g : CircGraph) : Option (Bool × List (List Edge)) :=
  (start_reg_is_cyclic g true).map
    (fun r => (r.1, rsort (fun x y => x.length ≤ y.length) r.2.paths))

/-- The sequential loop threading the longest-path accumulator. -/
def lpLoop (f : Edge → List (List Edge) → Option (List (List Edge))) :
    List Edge → List (List Edge) → Option (List (List Edge))
  | [], acc => some acc
  | t :: ts, acc =>
    match f t acc with
    | none => none
    | some acc' => lpLoop f ts acc'

/-- `CircGraph::rec_find_all_longest_paths`, with explicit fuel. -/
def rec_find_all_longest_paths (g : CircGraph) :
    Nat → List Edge → List (List Edge) → Option (List (List Edge))
  | 0, _, _ => none
  | fuel + 1, current_path, all_paths =>
    match current_path.getLast? with
    | none => some all_paths
    | some current_pos =>
      let targets := get_all_outgoing_edges_of_vertices g [current_pos.to_]
      match lpLoop (fun t acc => rec_find_all_longest_paths g fuel (current_path ++ [t]) acc)
          targets all_paths with
      | none => none
      | some acc => some (acc ++ [current_path])

/-- Result of `all_longest_paths`: the `None` of the source for a cyclic
graph, the panic of the `unwrap` on an empty path list, or the tied longest
paths. -/
inductive LPOut where
  | cyclic
  | panic
  | paths (l : List (List Edge))
  deriving DecidableEq

/-- `CircGraph::all_longest_paths`. -/
def all_longest_paths (g : CircGraph) : Option LPOut :=
  match is_cyclic g with
  | none => none
  | some true => some .cyclic
  | some false =>
    match lpLoop (fun e acc => rec_find_all_longest_paths g (cycFuel g) [e] acc)
        (get_path_start_edges g) [] with
    | none => none
    | some all_paths =>
      let sorted := rsort (fun x y => x.length ≤ y.length) all_paths
      match sorted.getLast? with
      | none => some .panic
      | some lp => some (.paths (sorted.filter (fun x => x.length == lp.length)))

/-! The property layer built on the split graph. -/

/-- `CircCode::is_circular`. -/
def is_circular (c : CircCode) : Option Bool :=
  match graphNew c with
  | .error _ => some false
  | .ok g => (is_cyclic g).map (!·)

/-- `CircCode::is_comma_free`; `Except.error ()` is a panic
(`all_longest_paths` unwrapping an empty list, or indexing an empty
result). -/
def is_comma_free (c : CircCode) : Option (Except Unit Bool) :=
  match graphNew c with
  | .error _ => some (.ok false)
  | .ok g =>
    match all_longest_paths g with
    | none => none
    | some .cyclic => some (.ok false)
    | some .panic => some (.error ())
    | some (.paths []) => some (.error ())
    | some (.paths (x :: _)) => some (.ok (decide (x.length ≤ 2)))

/-- `CircCode::is_strong_comma_free`. -/
def is_strong_comma_free (c : CircCode) : Option (Except Unit Bool) :=
  match graphNew c with
  | .error _ => some (.ok false)
  | .ok g =>
    match all_longest_paths g with
    | none => none
    | some .cyclic => some (.ok false)
    | some .panic => some (.error ())
    | some (.paths []) => some (.error ())
    | some (.paths (x :: _)) => some (.ok (decide (x.length = 1)))

/-- The maximum representable `u32` value. -/
def U32MAX : Nat := 2 ^ 32 - 1

/-- Wrapping `u32` subtraction of 1. -/
def u32sub1 (n : Nat) : Nat := (n + 2 ^ 32 - 1) % 2 ^ 32

/-- `CircCode::get_exact_k_circular`.  Note that the source returns `0`
(not the `u32::MAX` sentinel) when graph construction fails. -/
def get_exact_k_circular (c : CircCode) : Option Nat :=
  match graphNew c with
  | .error _ => some 0
  | .ok g =>
    match all_cycles g with
    | none => none
    | some (is_cyc, all_paths) =>
      if !is_cyc then some U32MAX
      else
        match all_paths.getLast? with
        | some cycle =>
          if cycle.length % 2 = 0 then some (u32sub1 (cycle.length % 2 ^ 32 / 2))
          else some (u32sub1 (cycle.length % 2 ^ 32))
        | none => some U32MAX

/-!
## Theorems

First the claims that are settled by direct evaluation of the embedding at
concrete inputs, then the general theorems.
-/

/-- C4 (code bug): `new_from_vec` and `new_from_seq` do *not* produce
duplicate-free word lists — `Vec::dedup` removes only consecutive
repetitions, so a non-adjacent repetition of an earlier word survives in
the constructed code, contradicting the documented "set of tuple/words"
data model. -/
theorem C4_dedup_keeps_nonadjacent_duplicates :
    new_from_vec [['A', 'B'], ['C', 'D'], ['A', 'B']] =
      .ok ⟨"unknown", [['A', 'B'], ['C', 'D'], ['A', 'B']], [2], ['A', 'B', 'C', 'D']⟩ ∧
    ¬ ([['A', 'B'], ['C', 'D'], ['A', 'B']] : List (List Char)).Nodup ∧
    new_from_seq ['A', 'B', 'C', 'C', 'A', 'B'] 2 =
      some (.ok ⟨"unknown", [['A', 'B'], ['C', 'C'], ['A', 'B']], [2], ['A', 'B', 'C']⟩) ∧
    ¬ ([['A', 'B'], ['C', 'C'], ['A', 'B']] : List (List Char)).Nodup := by
  refine ⟨by decide, by decide, by decide, by decide⟩

/-- C5 (code bug): on a code all of whose words have length 1 the split
graph has no edges, `is_cyclic` is `false`, and `all_longest_paths` panics
(`all_paths.last().unwrap()` on an empty vector) instead of returning
normally; consequently `is_comma_free` and `is_strong_comma_free` panic as
well instead of returning a boolean. -/
theorem C5_all_longest_paths_panics_on_edgeless_graph :
    new_from_vec [['A']] = .ok ⟨"unknown", [['A']], [1], ['A']⟩ ∧
    graphNew ⟨"unknown", [['A']], [1], ['A']⟩ = .ok ⟨['A'], [], []⟩ ∧
    is_cyclic ⟨['A'], [], []⟩ = some false ∧
    all_longest_paths ⟨['A'], [], []⟩ = some .panic ∧
    is_comma_free ⟨"unknown", [['A']], [1], ['A']⟩ = some (.error ()) ∧
    is_strong_comma_free ⟨"unknown", [['A']], [1], ['A']⟩ = some (.error ()) := by
  refine ⟨by decide, by decide, by decide, by decide, by decide, by decide⟩

/-- C6 (code bug): `new_from_seq` panics (`step_by(0)`) instead of
returning a value when the tuple length is `0` and the sequence is
non-empty, contrary to the propagation policy that constructors never
abort. -/
theorem C6_new_from_seq_panics_on_zero_tuple_length :
    new_from_seq ['A'] 0 = none ∧
    new_from_seq [] 0 = some (.error .EmptyCode) ∧
    new_from_seq ['A'] 2 = some (.error .EmptyCode) := by
  refine ⟨by decide, by decide, by decide⟩

/-- C7 counterexample: when split-graph construction fails,
`get_exact_k_circular` returns `0`, not the maximum representable `u32`
value claimed by the specification. -/
theorem C7_failure_sentinel_counterexample :
    graphNew ⟨"x", [], [], []⟩ = .error .EmptyCode ∧
    get_exact_k_circular ⟨"x", [], [], []⟩ = some 0 ∧
    (0 : Nat) ≠ U32MAX := by
  refine ⟨by decide, by decide, by decide⟩

/-- C7 amended: whenever construction of the split graph from a code
fails, `is_circular`, `is_comma_free` and `is_strong_comma_free` return
`false`, and `get_exact_k_circular` returns `0` (not the `u32::MAX`
sentinel). -/
theorem C7_failure_defaults (c : CircCode) (err : CircGraphErr)
    (h : graphNew c = .error err) :
    is_circular c = some false ∧ is_comma_free c = some (.ok false) ∧
    is_strong_comma_free c = some (.ok false) ∧
    get_exact_k_circular c = some 0 := by
  unfold is_circular is_comma_free is_strong_comma_free get_exact_k_circular
  rw [h]
  exact ⟨rfl, rfl, rfl, rfl⟩

/-- Witness for the amended C7 at a concrete failing code. -/
theorem C7_failure_defaults_witness :
    is_circular ⟨"x", [], [], []⟩ = some false ∧
    is_comma_free ⟨"x", [], [], []⟩ = some (.ok false) ∧
    is_strong_comma_free ⟨"x", [], [], []⟩ = some (.ok false) ∧
    get_exact_k_circular ⟨"x", [], [], []⟩ = some 0 :=
  C7_failure_defaults ⟨"x", [], [], []⟩ .EmptyCode (by decide)

/-! ### The rotation (`shift`) laws: C3 and C10 -/

/-- Negation of the dividend negates the truncated remainder. -/
theorem neg_tmod' (a b : Int) : (-a).tmod b = -(a.tmod b) := by
  rw [Int.tmod_def, Int.tmod_def, Int.neg_tdiv]; ring

/-- The effective offset depends only on the word length. -/
theorem shOff_len_congr (a : Int) {w1 w2 : List Char} (h : w1.length = w2.length) :
    shOff a w1 = shOff a w2 := by
  unfold shOff; rw [h]

/-- `shiftWord` is a rotation by the effective offset. -/
theorem shiftWord_rotate (sh : Int) (w : List Char) :
    shiftWord sh w = w.rotate (shOff sh w) := by
  cases w with
  | nil => simp [shiftWord]
  | cons a as =>
    have hlt : shOff sh (a :: as) < (a :: as).length :=
      Nat.mod_lt _ (by simp)
    rw [shiftWord, List.rotate_eq_drop_append_take (Nat.le_of_lt hlt)]

/-- The two effective offsets of `sh` and `-sh` cancel modulo the word
length. -/
theorem shOff_add_shOff (sh : Int) (w : List Char) (hw : w ≠ []) :
    (shOff sh w + shOff (-sh) w) % w.length = 0 := by
  have hL : 0 < w.length := List.length_pos.mpr hw
  have hLZ : (0 : Int) < (w.length : Int) := by exact_mod_cast hL
  have hm2 : sh.tmod (w.length : Int) < (w.length : Int) := Int.tmod_lt_of_pos sh hLZ
  have hm1 : -(w.length : Int) < sh.tmod (w.length : Int) := by
    have h := Int.tmod_lt_of_pos (-sh) hLZ
    rw [neg_tmod'] at h; omega
  unfold shOff
  rw [neg_tmod']
  set m := sh.tmod (w.length : Int) with hm
  set L := w.length with hLdef
  have ha : (((L : Int) + m).toNat : Int) = (L : Int) + m := by
    rw [Int.toNat_of_nonneg]; omega
  have hb : (((L : Int) + -m).toNat : Int) = (L : Int) + -m := by
    rw [Int.toNat_of_nonneg]; omega
  rcases lt_trichotomy m 0 with hc | hc | hc
  · have e1 : ((L : Int) + m).toNat % L = ((L : Int) + m).toNat := by
      apply Nat.mod_eq_of_lt; omega
    have e2 : ((L : Int) + -m).toNat % L = ((L : Int) + -m).toNat - L := by
      rw [Nat.mod_eq_sub_mod (by omega)]
      apply Nat.mod_eq_of_lt; omega
    rw [e1, e2]
    have : ((L : Int) + m).toNat + (((L : Int) + -m).toNat - L) = L := by omega
    rw [this, Nat.mod_self]
  · rw [hc]
    simp only [Int.add_zero, Int.neg_zero]
    have : ((L : Int)).toNat = L := by omega
    rw [this, Nat.mod_self]
    simp
  · have e1 : ((L : Int) + m).toNat % L = ((L : Int) + m).toNat - L := by
      rw [Nat.mod_eq_sub_mod (by omega)]
      apply Nat.mod_eq_of_lt; omega
    have e2 : ((L : Int) + -m).toNat % L = ((L : Int) + -m).toNat := by
      apply Nat.mod_eq_of_lt; omega
    rw [e1, e2]
    have : (((L : Int) + m).toNat - L) + ((L : Int) + -m).toNat = L := by omega
    rw [this, Nat.mod_self]

/-- Rotating a word by `sh` and then by `-sh` restores it. -/
theorem shiftWord_round_trip (sh : Int) (w : List Char) (hw : w ≠ []) :
    shiftWord (-sh) (shiftWord sh w) = w := by
  rw [shiftWord_rotate sh w, shiftWord_rotate (-sh)]
  rw [shOff_len_congr (-sh) (List.length_rotate w (shOff sh w))]
  rw [List.rotate_rotate, ← List.rotate_mod, shOff_add_shOff sh w hw,
    List.rotate_zero]

/-- Shifting by a multiple of the word length is the identity on that
word. -/
theorem shiftWord_mul_length (k : Int) (w : List Char) :
    shiftWord (k * (w.length : Int)) w = w := by
  unfold shiftWord shOff
  rw [Int.mul_tmod_left, Int.add_zero, Int.toNat_natCast, Nat.mod_self]
  simp

/-- C3 (confirmed, for codes satisfying the no-empty-word invariant): the
double shift by `s` and `-s` restores the word list exactly, hence the
codes are equal under the `PartialEq` on sorted word lists; and shifting by
any integer multiple of a word's length leaves that word unchanged. -/
theorem C3_shift_round_trip (c : CircCode) (s : Int)
    (hw : ∀ w ∈ c.code, w ≠ []) :
    circCodeEq (shift (shift c s) (-s)) c = true ∧
    (shift (shift c s) (-s)).code = c.code ∧
    (∀ w ∈ c.code, ∀ k : Int, shiftWord (k * (w.length : Int)) w = w) := by
  have hcode : (shift (shift c s) (-s)).code = c.code := by
    show (c.code.map (shiftWord s)).map (shiftWord (-s)) = c.code
    rw [List.map_map]
    have : ∀ w ∈ c.code, (shiftWord (-s) ∘ shiftWord s) w = id w := by
      intro w hmem
      exact shiftWord_round_trip s w (hw w hmem)
    rw [List.map_congr_left this, List.map_id]
  have hstruct : shift (shift c s) (-s) = c := by
    cases c with
    | mk i co t al => simpa [shift] using hcode
  refine ⟨?_, hcode, fun w _ k => shiftWord_mul_length k w⟩
  rw [hstruct]
  simp [circCodeEq]

/-- Witness for C3 at the code `{BDC, CA, DB}` and shift `-1`. -/
theorem C3_shift_round_trip_witness :
    circCodeEq
      (shift (shift ⟨"unknown", [['B','D','C'], ['C','A'], ['D','B']], [2, 3],
        ['A','B','C','D']⟩ (-1)) (-(-1)))
      ⟨"unknown", [['B','D','C'], ['C','A'], ['D','B']], [2, 3], ['A','B','C','D']⟩ = true ∧
    (shift (shift ⟨"unknown", [['B','D','C'], ['C','A'], ['D','B']], [2, 3],
        ['A','B','C','D']⟩ (-1)) (-(-1))).code =
      [['B','D','C'], ['C','A'], ['D','B']] ∧
    (∀ w ∈ ([['B','D','C'], ['C','A'], ['D','B']] : List (List Char)), ∀ k : Int,
      shiftWord (k * (w.length : Int)) w = w) :=
  C3_shift_round_trip
    ⟨"unknown", [['B','D','C'], ['C','A'], ['D','B']], [2, 3], ['A','B','C','D']⟩
    (-1) (by decide)

/-- Concatenations of pointwise permutations are permutations. -/
theorem flatten_map_perm (f : List Char → List Char)
    (hf : ∀ w : List Char, (f w).Perm w) :
    ∀ l : List (List Char), ((l.map f).flatten).Perm l.flatten := by
  intro l
  induction l with
  | nil => simp
  | cons a as ih =>
    simp only [List.map_cons, List.flatten_cons]
    exact (hf a).append ih

/-- C10 (confirmed): `shift` replaces only the word list; identifier,
tuple lengths and alphabet are untouched, every word is replaced by a
rotation of itself, so the lengths are preserved word by word and the
multiset of symbols is preserved. -/
theorem C10_shift_frame (c : CircCode) (s : Int)
    (_hw : ∀ w ∈ c.code, w ≠ []) :
    (shift c s).id = c.id ∧
    (shift c s).tuple_length = c.tuple_length ∧
    (shift c s).alphabet = c.alphabet ∧
    (shift c s).code = c.code.map (shiftWord s) ∧
    (∀ w ∈ c.code, shiftWord s w = w.rotate (shOff s w) ∧
      (shiftWord s w).length = w.length) ∧
    (shift c s).code.map List.length = c.code.map List.length ∧
    ((shift c s).code.flatten).Perm c.code.flatten := by
  refine ⟨rfl, rfl, rfl, rfl, ?_, ?_, ?_⟩
  · intro w _
    refine ⟨shiftWord_rotate s w, ?_⟩
    rw [shiftWord_rotate s w, List.length_rotate]
  · show (c.code.map (shiftWord s)).map List.length = _
    rw [List.map_map]
    apply List.map_congr_left
    intro w hmem
    show (shiftWord s w).length = w.length
    rw [shiftWord_rotate s w, List.length_rotate]
  · exact flatten_map_perm (shiftWord s)
      (fun w => by rw [shiftWord_rotate s w]; exact List.rotate_perm w _) c.code

/-! ### The vertex index (C8) -/

/-- A found position is within bounds. -/
theorem position?_lt {α : Type} (p : α → Bool) :
    ∀ {l : List α} {i : Nat}, position? p l = some i → i < l.length := by
  intro l
  induction l with
  | nil => intro i h; simp [position?] at h
  | cons a as ih =>
    intro i h
    by_cases hp : p a
    · simp [position?, hp] at h
      simp only [List.length_cons]
      omega
    · simp [position?, hp] at h
      obtain ⟨j, hj, hji⟩ := h
      have := ih hj
      simp only [List.length_cons]
      omega

/-- The element at a found position satisfies the predicate. -/
theorem position?_getD {α : Type} (p : α → Bool) (d : α) :
    ∀ {l : List α} {i : Nat}, position? p l = some i → p (l.getD i d) = true := by
  intro l
  induction l with
  | nil => intro i h; simp [position?] at h
  | cons a as ih =>
    intro i h
    by_cases hp : p a
    · simp [position?, hp] at h
      simp [← h, hp]
    · simp [position?, hp] at h
      obtain ⟨j, hj, hji⟩ := h
      rw [← hji]
      simpa using ih hj

/-- A member is found by `position?`. -/
theorem position?_of_mem {α : Type} [DecidableEq α] :
    ∀ {l : List α} {c : α}, c ∈ l →
      ∃ i, position? (fun a => a = c) l = some i := by
  intro l
  induction l with
  | nil => intro c h; cases h
  | cons a as ih =>
    intro c h
    by_cases hac : a = c
    · exact ⟨0, by simp [position?, hac]⟩
    · have hmem : c ∈ as := by
        cases h with
        | head => exact absurd rfl hac
        | tail _ h => exact h
      obtain ⟨j, hj⟩ := ih hmem
      exact ⟨j + 1, by simp [position?, hac, hj]⟩

/-- Every label over the alphabet has an exact value. -/
theorem labelVal_some_of_mem (alphabet : List Char) :
    ∀ (l : List Char), (∀ c ∈ l, c ∈ alphabet) →
      ∃ v, labelVal alphabet l = some v := by
  intro l
  induction l with
  | nil => intro _; exact ⟨0, rfl⟩
  | cons c rest ih =>
    intro h
    obtain ⟨i, hi⟩ := position?_of_mem (h c (by simp))
    obtain ⟨v, hv⟩ := ih (fun x hx => h x (by simp [hx]))
    exact ⟨(i + 1) + (alphabet.length + 1) * v, by simp [labelVal, hi, hv]⟩

/-- Unfolding equation of `labelVal` on a non-empty label. -/
theorem labelVal_cons_eq (alphabet : List Char) (c : Char) (rest : List Char)
    (i w : Nat) (hi : position? (fun a => a = c) alphabet = some i)
    (hw : labelVal alphabet rest = some w) :
    labelVal alphabet (c :: rest) = some ((i + 1) + (alphabet.length + 1) * w) := by
  simp [labelVal, hi, hw]

/-- The exact base-`(|alphabet|+1)` value is injective on labels over the
alphabet: the digits are the 1-indexed alphabet positions, all non-zero and
below the base. -/
theorem labelVal_inj (alphabet : List Char) :
    ∀ (l1 : List Char) {l2 : List Char} {v : Nat},
      (∀ c ∈ l1, c ∈ alphabet) → (∀ c ∈ l2, c ∈ alphabet) →
      labelVal alphabet l1 = some v → labelVal alphabet l2 = some v →
      l1 = l2 := by
  intro l1
  induction l1 with
  | nil =>
    intro l2 v _ h2 e1 e2
    cases l2 with
    | nil => rfl
    | cons c rest =>
      exfalso
      obtain ⟨i, hi⟩ := position?_of_mem (h2 c (by simp))
      obtain ⟨w, hw⟩ := labelVal_some_of_mem alphabet rest
        (fun x hx => h2 x (by simp [hx]))
      rw [labelVal_cons_eq alphabet c rest i w hi hw] at e2
      have e1' : (0 : Nat) = v := by injection e1
      have e2' : (i + 1) + (alphabet.length + 1) * w = v := by injection e2
      omega
  | cons a r1 ih =>
    intro l2 v h1 h2 e1 e2
    obtain ⟨i1, hi1⟩ := position?_of_mem (h1 a (by simp))
    obtain ⟨w1, hw1⟩ := labelVal_some_of_mem alphabet r1
      (fun x hx => h1 x (by simp [hx]))
    rw [labelVal_cons_eq alphabet a r1 i1 w1 hi1 hw1] at e1
    cases l2 with
    | nil =>
      exfalso
      have e2' : (0 : Nat) = v := by injection e2
      have e1' : (i1 + 1) + (alphabet.length + 1) * w1 = v := by injection e1
      omega
    | cons c r2 =>
      obtain ⟨i2, hi2⟩ := position?_of_mem (h2 c (by simp))
      obtain ⟨w2, hw2⟩ := labelVal_some_of_mem alphabet r2
        (fun x hx => h2 x (by simp [hx]))
      rw [labelVal_cons_eq alphabet c r2 i2 w2 hi2 hw2] at e2
      have e1' : (i1 + 1) + (alphabet.length + 1) * w1 = v := by injection e1
      have e2' : (i2 + 1) + (alphabet.length + 1) * w2 = v := by injection e2
      have hlt1 : i1 + 1 < alphabet.length + 1 :=
        Nat.succ_lt_succ (position?_lt _ hi1)
      have hlt2 : i2 + 1 < alphabet.length + 1 :=
        Nat.succ_lt_succ (position?_lt _ hi2)
      have heq : (i1 + 1) + (alphabet.length + 1) * w1 =
          (i2 + 1) + (alphabet.length + 1) * w2 := by omega
      have hd : i1 + 1 = i2 + 1 := by
        have hm := congrArg (· % (alphabet.length + 1)) heq
        simpa [Nat.add_mul_mod_self_left, Nat.mod_eq_of_lt hlt1,
          Nat.mod_eq_of_lt hlt2] using hm
      have hi : i1 = i2 := by omega
      have hw : w1 = w2 := by
        have h' := heq
        rw [hd] at h'
        have h'' := Nat.add_left_cancel h'
        exact Nat.eq_of_mul_eq_mul_left (by omega) h''
      have hch : a = c := by
        have g1 := position?_getD (fun x => x = a) ROOT hi1
        have g2 := position?_getD (fun x => x = c) ROOT hi2
        rw [hi] at g1
        have ga : alphabet.getD i2 ROOT = a := by simpa using g1
        have gc : alphabet.getD i2 ROOT = c := by simpa using g2
        rw [← ga, ← gc]
      rw [hch, ih (fun x hx => h1 x (by simp [hx]))
        (fun x hx => h2 x (by simp [hx])) hw1 (hw ▸ hw2)]

/-- `wrap32` is the identity on the `i32` range. -/
theorem wrap32_eq_self {x : Int} (h1 : -(2 ^ 31) ≤ x) (h2 : x < 2 ^ 31) :
    wrap32 x = x := by
  have p31 : (2 : Int) ^ 31 = 2147483648 := by norm_num
  have p32 : (2 : Int) ^ 32 = 4294967296 := by norm_num
  unfold wrap32
  rw [p31, p32] at *
  rw [Int.emod_eq_of_lt (by omega) (by omega)]
  omega

/-- Unfolding equation of `calcIdxGo` on a non-empty label. -/
theorem calcIdxGo_cons_eq (alphabet : List Char) (c : Char) (rest : List Char)
    (pos index : Int) (i : Nat)
    (hi : position? (fun a => a = c) alphabet = some i) :
    calcIdxGo alphabet (c :: rest) pos index =
      calcIdxGo alphabet rest (wrap32 (pos * ((alphabet.length : Int) + 1)))
        (wrap32 (index + wrap32 (((i : Int) + 1) * pos))) := by
  simp [calcIdxGo, hi]

/-- While no intermediate value overflows, `calcIdxGo` computes the exact
positional value: starting from accumulator `index < B^k` and weight
`B^k`, it returns `index + B^k * labelVal`. -/
theorem calcIdxGo_exact (alphabet : List Char) :
    ∀ (l : List Char) (k : Nat) (index : Int),
      (∀ c ∈ l, c ∈ alphabet) →
      0 ≤ index → index < ((alphabet.length : Int) + 1) ^ k →
      ((alphabet.length + 1) ^ (k + l.length) : Nat) ≤ 2 ^ 31 →
      ∃ v : Nat, labelVal alphabet l = some v ∧
        calcIdxGo alphabet l (((alphabet.length : Int) + 1) ^ k) index =
          some (index + ((alphabet.length : Int) + 1) ^ k * v) := by
  intro l
  induction l with
  | nil =>
    intro k index _ _ _ _
    exact ⟨0, rfl, by simp [calcIdxGo]⟩
  | cons c rest ih =>
    intro k index hmem hnn hlt hbound
    obtain ⟨i, hi⟩ := position?_of_mem (hmem c (by simp))
    have hiA : i < alphabet.length := position?_lt _ hi
    have hA1 : 1 ≤ alphabet.length := by omega
    set A : Nat := alphabet.length with hA
    set B : Int := (A : Int) + 1 with hB
    have hB2 : (2 : Int) ≤ B := by rw [hB]; omega
    have hBpos : (0 : Int) < B := by omega
    have hcast : ∀ n : Nat, (((A + 1) ^ n : Nat) : Int) = B ^ n := by
      intro n
      push_cast [hB]
      ring
    have hBk_pos : (0 : Int) < B ^ k := pow_pos hBpos k
    have hbound' : B ^ (k + (rest.length + 1)) ≤ 2 ^ 31 := by
      have := hbound
      simp only [List.length_cons] at this
      calc B ^ (k + (rest.length + 1)) = (((A + 1) ^ (k + (rest.length + 1)) : Nat) : Int) :=
            (hcast _).symm
        _ ≤ (((2 : Nat) ^ 31 : Nat) : Int) := by exact_mod_cast this
        _ = 2 ^ 31 := by norm_num
    have hmono : B ^ (k + 1) ≤ B ^ (k + (rest.length + 1)) :=
      pow_le_pow_right₀ (by omega) (by omega)
    have hstep : B ^ (k + 1) = B ^ k * B := by ring
    -- the digit weight does not overflow
    have hdig_lt : ((i : Int) + 1) * B ^ k < B ^ (k + 1) := by
      rw [hstep]
      have : ((i : Int) + 1) < B := by
        simp only [hB]
        exact_mod_cast Nat.succ_lt_succ hiA
      calc ((i : Int) + 1) * B ^ k < B * B ^ k := by
            exact mul_lt_mul_of_pos_right this hBk_pos
        _ = B ^ k * B := by ring
    have hdig_nn : (0 : Int) ≤ ((i : Int) + 1) * B ^ k := by positivity
    have hw_inner : wrap32 (((i : Int) + 1) * B ^ k) = ((i : Int) + 1) * B ^ k := by
      apply wrap32_eq_self
      · omega
      · omega
    have hsum_lt : index + ((i : Int) + 1) * B ^ k < B ^ (k + 1) := by
      rw [hstep]
      have : ((i : Int) + 1 + 1) ≤ B := by
        simp only [hB]
        exact_mod_cast Nat.succ_le_succ (Nat.succ_le_of_lt hiA)
      calc index + ((i : Int) + 1) * B ^ k < B ^ k + ((i : Int) + 1) * B ^ k := by omega
        _ = (((i : Int) + 1) + 1) * B ^ k := by ring
        _ ≤ B * B ^ k := by
            exact mul_le_mul_of_nonneg_right this (le_of_lt hBk_pos)
        _ = B ^ k * B := by ring
    have hw_outer : wrap32 (index + wrap32 (((i : Int) + 1) * B ^ k)) =
        index + ((i : Int) + 1) * B ^ k := by
      rw [hw_inner]
      apply wrap32_eq_self
      · omega
      · omega
    cases rest with
    | nil =>
      refine ⟨i + 1 + (A + 1) * 0, labelVal_cons_eq alphabet c [] i 0 hi rfl, ?_⟩
      rw [calcIdxGo_cons_eq alphabet c [] (B ^ k) index i hi, hw_outer]
      rw [calcIdxGo]
      congr 1
      push_cast
      ring
    | cons c2 r2 =>
      have hpos_wrap : wrap32 (B ^ k * B) = B ^ (k + 1) := by
        rw [← hstep]
        apply wrap32_eq_self
        · have := pow_pos hBpos (k + 1)
          omega
        · have hstrict : B ^ (k + 1) < B ^ (k + ((c2 :: r2).length + 1)) := by
            apply pow_lt_pow_right₀ (by omega)
            simp
          have hb2 := hbound'
          simp only [List.length_cons] at hstrict hb2 ⊢
          omega
      obtain ⟨v, hv, hcalc⟩ := ih (k + 1) (index + ((i : Int) + 1) * B ^ k)
        (fun x hx => hmem x (by simp [hx])) (by positivity) hsum_lt
        (by
          have hexp : k + 1 + (c2 :: r2).length = k + (c :: c2 :: r2).length := by
            simp only [List.length_cons]; omega
          rw [hexp]; exact hbound)
      refine ⟨i + 1 + (A + 1) * v, labelVal_cons_eq alphabet c (c2 :: r2) i v hi hv, ?_⟩
      rw [calcIdxGo_cons_eq alphabet c (c2 :: r2) (B ^ k) index i hi, hw_outer,
        ← hA, ← hB, hpos_wrap, hcalc]
      congr 1
      push_cast
      rw [hB]
      ring

/-- `calculate_idx` agrees with the exact positional value when the label
is short enough that no `i32` overflow occurs. -/
theorem calculate_idx_exact (alphabet l : List Char)
    (hmem : ∀ c ∈ l, c ∈ alphabet)
    (hbound : (alphabet.length + 1) ^ l.length ≤ 2 ^ 31) :
    ∃ v : Nat, labelVal alphabet l = some v ∧
      calculate_idx l alphabet = some (v : Int) := by
  obtain ⟨v, hv, hcalc⟩ := calcIdxGo_exact alphabet l 0 0 hmem le_rfl
    (by positivity) (by simpa using hbound)
  refine ⟨v, hv, ?_⟩
  unfold calculate_idx
  rw [pow_zero] at hcalc
  rw [hcalc]
  congr 1
  ring

set_option maxRecDepth 4000 in
/-- C8 counterexample: under the `i32` wrap-around of the source, the
labels `A^32` and `A^33` over the alphabet `{A}` receive the same index
(`-1`) although they differ, so the index computation is not injective on
labels over the alphabet. -/
theorem C8_wraparound_counterexample :
    calculate_idx (List.replicate 32 'A') ['A'] = some (-1) ∧
    calculate_idx (List.replicate 33 'A') ['A'] = some (-1) ∧
    List.replicate 32 'A' ≠ List.replicate 33 'A' ∧
    (∀ ch ∈ List.replicate 32 'A', ch ∈ ['A']) ∧
    (∀ ch ∈ List.replicate 33 'A', ch ∈ ['A']) := by
  refine ⟨by decide, by decide, by decide, by decide, by decide⟩

/-- C8 amended: over a fixed alphabet, the index computation is injective
on labels short enough that the base-`(|alphabet|+1)` value stays within
`i32` (no overflow); equality of computed indices then coincides with
equality of labels, as used by vertex equality, ordering and
deduplication. -/
theorem C8_index_injective_without_overflow (alphabet l1 l2 : List Char)
    (h1 : ∀ c ∈ l1, c ∈ alphabet) (h2 : ∀ c ∈ l2, c ∈ alphabet)
    (hb1 : (alphabet.length + 1) ^ l1.length ≤ 2 ^ 31)
    (hb2 : (alphabet.length + 1) ^ l2.length ≤ 2 ^ 31) :
    (calculate_idx l1 alphabet = calculate_idx l2 alphabet ↔ l1 = l2) := by
  constructor
  · intro heq
    obtain ⟨v1, hv1, hc1⟩ := calculate_idx_exact alphabet l1 h1 hb1
    obtain ⟨v2, hv2, hc2⟩ := calculate_idx_exact alphabet l2 h2 hb2
    rw [hc1, hc2] at heq
    have : (v1 : Int) = (v2 : Int) := by injection heq
    have hv : v1 = v2 := by exact_mod_cast this
    exact labelVal_inj alphabet l1 h1 h2 hv1 (hv ▸ hv2)
  · intro h
    rw [h]

/-- Witness for the amended C8 over the alphabet `{A, B}`. -/
theorem C8_index_injective_witness :
    calculate_idx ['A', 'B'] ['A', 'B'] ≠ calculate_idx ['B', 'A'] ['A', 'B'] := by
  intro hc
  have h := (C8_index_injective_without_overflow ['A', 'B'] ['A', 'B'] ['B', 'A']
    (by decide) (by decide) (by norm_num) (by norm_num)).mp hc
  exact absurd h (by decide)

/-! ### Exact k-circularity from the longest cycle (C2) -/

instance : IsTotal (List Edge) (fun x y => x.length ≤ y.length) :=
  ⟨fun a b => Nat.le_total a.length b.length⟩

instance : IsTrans (List Edge) (fun x y => x.length ≤ y.length) :=
  ⟨fun _ _ _ => Nat.le_trans⟩

/-- In a pairwise-`r` list with `r` reflexive, every element is related to
the last element. -/
theorem pairwise_le_getLast {α : Type} (r : α → α → Prop) (hrefl : ∀ a, r a a) :
    ∀ (l : List α) (m : α), l.Pairwise r → l.getLast? = some m →
      ∀ x ∈ l, r x m := by
  intro l
  induction l with
  | nil => intro m _ h; simp at h
  | cons a as ih =>
    intro m hp hlast x hx
    cases as with
    | nil =>
      simp at hlast hx
      rw [hx, hlast]
      exact hrefl m
    | cons b bs =>
      rw [List.getLast?_cons_cons] at hlast
      rcases List.mem_cons.mp hx with hxa | hxtail
      · have hm : m ∈ b :: bs := List.mem_of_getLast?_eq_some hlast
        rw [hxa]
        exact (List.pairwise_cons.mp hp).1 m hm
      · exact ih m (List.pairwise_cons.mp hp).2 hlast x hxtail

/-- The cycle list returned by `all_cycles` is sorted ascending by
length. -/
theorem all_cycles_sorted (g : CircGraph) (b : Bool) (l : List (List Edge))
    (hc : all_cycles g = some (b, l)) :
    l.Pairwise (fun x y => x.length ≤ y.length) := by
  unfold all_cycles at hc
  cases hstart : start_reg_is_cyclic g true with
  | none => rw [hstart] at hc; simp at hc
  | some r =>
    rw [hstart] at hc
    simp only [Option.map_some'] at hc
    have hc2 : (r.1, rsort (fun x y => x.length ≤ y.length) r.2.paths) = (b, l) := by
      injection hc
    have hl : l = rsort (fun x y => x.length ≤ y.length) r.2.paths := by
      have := congrArg Prod.snd hc2
      simpa using this.symm
    rw [hl]
    exact List.sorted_insertionSort (fun x y => x.length ≤ y.length) r.2.paths

set_option maxRecDepth 8000 in
/-- C2 (confirmed): with a successfully constructed split graph, the exact
k is the `u32::MAX` sentinel when `all_cycles` reports the graph acyclic;
otherwise, writing `c` for the edge-count of the last returned cycle — a
longest one, since the returned list is sorted ascending by length — the
result is `c/2 - 1` for even `c` and `c - 1` for odd `c`. -/
theorem C2_exact_k_from_longest_cycle (c : CircCode) (g : CircGraph)
    (b : Bool) (l : List (List Edge))
    (hg : graphNew c = .ok g) (hc : all_cycles g = some (b, l)) :
    (b = false → get_exact_k_circular c = some U32MAX) ∧
    (∀ lc, b = true → l.getLast? = some lc → 1 ≤ lc.length →
      lc.length < 2 ^ 32 →
      (get_exact_k_circular c =
        some (if lc.length % 2 = 0 then lc.length / 2 - 1 else lc.length - 1)) ∧
      ∀ x ∈ l, x.length ≤ lc.length) := by
  have hmain : get_exact_k_circular c =
      (match all_cycles g with
        | none => none
        | some (is_cyc, all_paths) =>
          if (!is_cyc) = true then some U32MAX
          else
            match all_paths.getLast? with
            | some cycle =>
              if cycle.length % 2 = 0 then some (u32sub1 (cycle.length % 2 ^ 32 / 2))
              else some (u32sub1 (cycle.length % 2 ^ 32))
            | none => some U32MAX) := by
    unfold get_exact_k_circular
    rw [hg]
  constructor
  · intro hb
    rw [hmain, hc, hb]
    rfl
  · intro lc hb hlast hlen1 hlen2
    constructor
    · rw [hmain, hc, hb]
      show (match l.getLast? with
        | some cycle =>
          if cycle.length % 2 = 0 then some (u32sub1 (cycle.length % 2 ^ 32 / 2))
          else some (u32sub1 (cycle.length % 2 ^ 32))
        | none => some U32MAX) = _
      rw [hlast]
      show (if lc.length % 2 = 0 then some (u32sub1 (lc.length % 2 ^ 32 / 2))
        else some (u32sub1 (lc.length % 2 ^ 32))) = _
      have p32 : (2 : Nat) ^ 32 = 4294967296 := by norm_num
      have hmod : lc.length % 2 ^ 32 = lc.length :=
        Nat.mod_eq_of_lt hlen2
      by_cases hpar : lc.length % 2 = 0
      · rw [if_pos hpar, if_pos hpar, hmod]
        refine congrArg some ?_
        simp only [u32sub1, p32]
        rw [p32] at hlen2
        omega
      · rw [if_neg hpar, if_neg hpar, hmod]
        refine congrArg some ?_
        simp only [u32sub1, p32]
        rw [p32] at hlen2
        omega
    · exact pairwise_le_getLast (fun x y => x.length ≤ y.length)
        (fun a => Nat.le_refl a.length) l lc (all_cycles_sorted g b l hc) hlast

/-- Witness for C2: the acyclic code `{AB}` gets the sentinel; the cyclic
code `{AB, BA}` has a single 2-edge cycle and exact k `0`. -/
theorem C2_exact_k_witness :
    get_exact_k_circular ⟨"unknown", [['A', 'B']], [2], ['A', 'B']⟩ = some U32MAX ∧
    get_exact_k_circular ⟨"unknown", [['A', 'B'], ['B', 'A']], [2], ['A', 'B']⟩ =
      some 0 := by
  constructor
  · exact (C2_exact_k_from_longest_cycle
      ⟨"unknown", [['A', 'B']], [2], ['A', 'B']⟩
      ⟨['A', 'B'], [⟨['A'], 1⟩, ⟨['B'], 2⟩],
        [⟨⟨['A'], 1⟩, ⟨['B'], 2⟩, ['A', 'B']⟩]⟩
      false [] (by decide) (by decide)).1 rfl
  · have h := (C2_exact_k_from_longest_cycle
      ⟨"unknown", [['A', 'B'], ['B', 'A']], [2], ['A', 'B']⟩
      ⟨['A', 'B'], [⟨['A'], 1⟩, ⟨['B'], 2⟩],
        [⟨⟨['A'], 1⟩, ⟨['B'], 2⟩, ['A', 'B']⟩, ⟨⟨['B'], 2⟩, ⟨['A'], 1⟩, ['B', 'A']⟩]⟩
      true [[⟨⟨['A'], 1⟩, ⟨['B'], 2⟩, ['A', 'B']⟩, ⟨⟨['B'], 2⟩, ⟨['A'], 1⟩, ['B', 'A']⟩]]
      (by decide) (by decide)).2
      [⟨⟨['A'], 1⟩, ⟨['B'], 2⟩, ['A', 'B']⟩, ⟨⟨['B'], 2⟩, ⟨['A'], 1⟩, ['B', 'A']⟩]
      rfl (by decide) (by decide) (by norm_num)
    have h1 := h.1
    norm_num at h1
    exact h1

/-! ### The decidability walk: termination (C9) and flag/soundness (C1) -/

/-- Filtering by a stronger predicate keeps at most as many elements. -/
theorem length_filter_le_filter {α : Type} (p q : α → Bool)
    (h : ∀ x, p x = true → q x = true) :
    ∀ l : List α, (l.filter p).length ≤ (l.filter q).length := by
  intro l
  induction l with
  | nil => simp
  | cons a as ih =>
    by_cases hp : p a = true
    · rw [List.filter_cons_of_pos hp, List.filter_cons_of_pos (h a hp)]
      simpa using ih
    · rw [List.filter_cons_of_neg (by simpa using hp)]
      by_cases hq : q a = true
      · rw [List.filter_cons_of_pos hq]
        simp only [List.length_cons]
        omega
      · rw [List.filter_cons_of_neg (by simpa using hq)]
        exact ih

/-- If the stricter filter drops an element the laxer one keeps, the
stricter filter output is strictly shorter. -/
theorem length_filter_lt_of {α : Type} (p q : α → Bool)
    (hmono : ∀ x, p x = true → q x = true) (a : α)
    (hpa : p a = false) (hqa : q a = true) :
    ∀ l : List α, a ∈ l → (l.filter p).length < (l.filter q).length := by
  intro l
  induction l with
  | nil => intro hmem; cases hmem
  | cons x xs ih =>
    intro hmem
    rcases List.mem_cons.mp hmem with hxa | hxs
    · rw [← hxa]
      rw [List.filter_cons_of_neg (by simp [hpa]), List.filter_cons_of_pos hqa]
      simp only [List.length_cons]
      have := length_filter_le_filter p q hmono xs
      omega
    · by_cases hp : p x = true
      · rw [List.filter_cons_of_pos hp, List.filter_cons_of_pos (hmono x hp)]
        simp only [List.length_cons]
        have := ih hxs
        omega
      · rw [List.filter_cons_of_neg (by simpa using hp)]
        by_cases hq : q x = true
        · rw [List.filter_cons_of_pos hq]
          simp only [List.length_cons]
          have := ih hxs
          omega
        · rw [List.filter_cons_of_neg (by simpa using hq)]
          exact ih hxs

/-- Position membership in the enumeration of all valid positions. -/
theorem mem_allPositions (e : List (List Char)) (p : Nat × Nat) :
    p ∈ allPositions e ↔ validPos e p := by
  simp only [allPositions, validPos, List.mem_flatMap, List.mem_map, List.mem_range]
  constructor
  · rintro ⟨a, ha, k, hk, rfl⟩
    exact ⟨ha, hk⟩
  · rintro ⟨h1, h2⟩
    exact ⟨p.1, h1, p.2, h2, rfl⟩

/-- The sorted pair of two valid positions is an enumerated pair. -/
theorem sortPair_mem_allPairs (e : List (List Char)) (p0 p1 : Nat × Nat)
    (h0 : validPos e p0) (h1 : validPos e p1) :
    sortPair p0 p1 ∈ allPairs e := by
  unfold sortPair allPairs
  by_cases h : posLe p0 p1
  · rw [if_pos h]
    exact List.mem_product.mpr
      ⟨(mem_allPositions e p0).mpr h0, (mem_allPositions e p1).mpr h1⟩
  · rw [if_neg h]
    exact List.mem_product.mpr
      ⟨(mem_allPositions e p1).mpr h1, (mem_allPositions e p0).mpr h0⟩

/-- Recording an unseen valid pair strictly shrinks the remaining count. -/
theorem remaining_decrease (e : List (List Char))
    (history : List ((Nat × Nat) × (Nat × Nat))) (sp : (Nat × Nat) × (Nat × Nat))
    (hmem : sp ∈ allPairs e) (hna : sp ∉ history) :
    remaining e (history ++ [sp]) < remaining e history := by
  unfold remaining
  apply length_filter_lt_of _ _ _ sp _ _ _ hmem
  · intro x hx
    simp only [decide_eq_true_eq] at hx ⊢
    intro hin
    exact hx (by simp [hin])
  · simp
  · simpa using hna

/-- `getD` at an in-range index is a member. -/
theorem getD_mem_of_lt {α : Type} (l : List α) (n : Nat) (d : α)
    (h : n < l.length) : l.getD n d ∈ l := by
  rw [List.getD_eq_getElem?_getD, List.getElem?_eq_getElem h]
  exact List.getElem_mem h

/-- `branchLoop` returns a value when every branch does. -/
theorem branchLoop_isSome {α : Type}
    (f : α → List (List Char) → Option (Bool × List (List Char))) (fap : Bool) :
    ∀ (ks : List α) (b0 : Bool) (acc : List (List Char)),
      (∀ k ∈ ks, ∀ a, (f k a).isSome) →
      (branchLoop f fap ks b0 acc).isSome := by
  intro ks
  induction ks with
  | nil => intro b0 acc _; simp [branchLoop]
  | cons k ks ih =>
    intro b0 acc hf
    rw [branchLoop]
    cases hfk : f k acc with
    | none =>
      have := hf k (by simp) acc
      rw [hfk] at this
      simp at this
    | some r =>
      obtain ⟨b, acc'⟩ := r
      show (if b then branchLoop f fap ks b0 acc'
        else if fap then branchLoop f fap ks false acc'
        else some (false, acc')).isSome
      by_cases hb : b = true
      · rw [if_pos hb]
        exact ih b0 acc' (fun x hx => hf x (by simp [hx]))
      · rw [if_neg hb]
        by_cases hfap : fap = true
        · rw [if_pos hfap]
          exact ih false acc' (fun x hx => hf x (by simp [hx]))
        · rw [if_neg hfap]
          simp

/-- Restart positions are valid (the graph sequences are non-empty). -/
theorem restart_validPos (e : List (List Char)) (he : ∀ w ∈ e, w ≠ [])
    (k : Nat) (hk : k ∈ List.range' 1 (e.length - 1)) : validPos e (k, 0) := by
  rw [List.mem_range'] at hk
  obtain ⟨i, hi, hki⟩ := hk
  have hk1 : 1 ≤ k := by omega
  have hke : k < e.length := by omega
  refine ⟨hke, ?_⟩
  have hmem : e.getD k [] ∈ e := getD_mem_of_lt e k [] hke
  have := he _ hmem
  exact List.length_pos.mpr this

/-- Termination of the decidability walk (auxiliary form): fuel exceeding
the number of valid position pairs not yet in the history always
suffices. -/
theorem reg_is_code_isSome_aux (e : List (List Char)) (he : ∀ w ∈ e, w ≠ []) :
    ∀ (fuel : Nat) (p0 p1 : Nat × Nat)
      (history : List ((Nat × Nat) × (Nat × Nat))) (fap : Bool)
      (acc : List (List Char)) (path : List Char),
      validPos e p0 → validPos e p1 → remaining e history < fuel →
      (reg_is_code e fuel p0 p1 history fap acc path).isSome := by
  intro fuel
  induction fuel with
  | zero => intro _ _ _ _ _ _ _ _ h; omega
  | succ n ih =>
    intro p0 p1 history fap acc path h0 h1 hrem
    rw [reg_is_code]
    by_cases hsp : sortPair p0 p1 ∈ history
    · rw [if_pos hsp]
      simp
    · rw [if_neg hsp]
      have hmem := sortPair_mem_allPairs e p0 p1 h0 h1
      have hdec := remaining_decrease e history _ hmem hsp
      have hrem' : remaining e (history ++ [sortPair p0 p1]) < n := by omega
      by_cases hb0 : p0 = (0, 0) ∨ (e.getD p0.1 []).length - 1 = p0.2
      · rw [if_pos hb0]
        apply branchLoop_isSome
        intro k hk a
        exact ih (k, 0) p1 _ fap a path (restart_validPos e he k hk) h1 hrem'
      · rw [if_neg hb0]
        by_cases hb1 : p1 = (0, 0) ∨ (e.getD p1.1 []).length - 1 = p1.2
        · rw [if_pos hb1]
          apply branchLoop_isSome
          intro k hk a
          exact ih (k, 0) p0 _ fap a path (restart_validPos e he k hk) h0 hrem'
        · rw [if_neg hb1]
          have hq0 : validPos e (p0.1, p0.2 + 1) := by
            refine ⟨h0.1, ?_⟩
            show p0.2 + 1 < (e.getD p0.1 []).length
            have hlen : 1 ≤ (e.getD p0.1 []).length :=
              List.length_pos.mpr (he _ (getD_mem_of_lt e p0.1 [] h0.1))
            have := h0.2
            have hne : (e.getD p0.1 []).length - 1 ≠ p0.2 := fun hc => hb0 (Or.inr hc)
            omega
          have hq1 : validPos e (p1.1, p1.2 + 1) := by
            refine ⟨h1.1, ?_⟩
            show p1.2 + 1 < (e.getD p1.1 []).length
            have hlen : 1 ≤ (e.getD p1.1 []).length :=
              List.length_pos.mpr (he _ (getD_mem_of_lt e p1.1 [] h1.1))
            have := h1.2
            have hne : (e.getD p1.1 []).length - 1 ≠ p1.2 := fun hc => hb1 (Or.inr hc)
            omega
          by_cases hc : (e.getD (p0.1, p0.2 + 1).1 []).getD (p0.1, p0.2 + 1).2 ROOT =
              (e.getD (p1.1, p1.2 + 1).1 []).getD (p1.1, p1.2 + 1).2 ROOT
          · rw [if_pos hc]
            by_cases hend : (e.getD (p0.1, p0.2 + 1).1 []).length - 1 = (p0.1, p0.2 + 1).2 ∧
                (e.getD (p1.1, p1.2 + 1).1 []).length - 1 = (p1.1, p1.2 + 1).2
            · rw [if_pos hend]
              simp
            · rw [if_neg hend]
              exact ih (p0.1, p0.2 + 1) (p1.1, p1.2 + 1) _ fap acc _ hq0 hq1 hrem'
          · rw [if_neg hc]
            simp

/-- Shape of a `branchLoop` run: either every accumulator is rejected by
fuel exhaustion, or the verdict and the appended suffix are independent of
the accumulator; in decide mode nothing is appended, and a `false` verdict
in enumerate mode starting from `true` forces a non-empty suffix. -/
theorem branchLoop_shape {α : Type}
    (f : α → List (List Char) → Option (Bool × List (List Char))) (fap : Bool)
    (ks : List α)
    (hf : ∀ k ∈ ks, (∀ a, f k a = none) ∨
      ∃ b Δ, (∀ a, f k a = some (b, a ++ Δ)) ∧ (fap = false → Δ = []) ∧
        (b = false → fap = true → Δ ≠ [])) :
    ∀ b0 : Bool, (∀ a, branchLoop f fap ks b0 a = none) ∨
      ∃ b Δ, (∀ a, branchLoop f fap ks b0 a = some (b, a ++ Δ)) ∧
        (fap = false → Δ = []) ∧
        (b = false → fap = true → b0 = false ∨ Δ ≠ []) := by
  induction ks with
  | nil =>
    intro b0
    right
    exact ⟨b0, [], fun a => by simp [branchLoop], fun _ => rfl,
      fun hb _ => Or.inl hb⟩
  | cons k ks ih =>
    intro b0
    rcases hf k (by simp) with hnone | ⟨bk, Δk, hfk, hΔ, hne⟩
    · left
      intro a
      rw [branchLoop, hnone a]
    · by_cases hbk : bk = true
      · rcases ih (fun x hx => hf x (by simp [hx])) b0 with
          hnone | ⟨b, Δ, hbl, hΔ', hne'⟩
        · left
          intro a
          rw [branchLoop, hfk a]
          show (if bk = true then branchLoop f fap ks b0 (a ++ Δk)
            else if fap = true then branchLoop f fap ks false (a ++ Δk)
            else some (false, a ++ Δk)) = none
          rw [if_pos hbk]
          exact hnone (a ++ Δk)
        · right
          refine ⟨b, Δk ++ Δ, ?_, ?_, ?_⟩
          · intro a
            rw [branchLoop, hfk a]
            show (if bk = true then branchLoop f fap ks b0 (a ++ Δk)
              else if fap = true then branchLoop f fap ks false (a ++ Δk)
              else some (false, a ++ Δk)) = _
            rw [if_pos hbk, hbl (a ++ Δk), List.append_assoc]
          · intro hfap
            rw [hΔ hfap, hΔ' hfap]
            rfl
          · intro hb hfap
            rcases hne' hb hfap with h | h
            · exact Or.inl h
            · right
              intro hcontra
              exact h (List.append_eq_nil.mp hcontra).2
      · by_cases hfap : fap = true
        · rcases ih (fun x hx => hf x (by simp [hx])) false with
            hnone | ⟨b, Δ, hbl, hΔ', hne'⟩
          · left
            intro a
            rw [branchLoop, hfk a]
            show (if bk = true then branchLoop f fap ks b0 (a ++ Δk)
              else if fap = true then branchLoop f fap ks false (a ++ Δk)
              else some (false, a ++ Δk)) = none
            rw [if_neg hbk, if_pos hfap]
            exact hnone (a ++ Δk)
          · right
            refine ⟨b, Δk ++ Δ, ?_, ?_, ?_⟩
            · intro a
              rw [branchLoop, hfk a]
              show (if bk = true then branchLoop f fap ks b0 (a ++ Δk)
                else if fap = true then branchLoop f fap ks false (a ++ Δk)
                else some (false, a ++ Δk)) = _
              rw [if_neg hbk, if_pos hfap, hbl (a ++ Δk), List.append_assoc]
            · intro hf0
              rw [hf0] at hfap
              cases hfap
            · intro _ _
              right
              have hΔk : Δk ≠ [] := hne (by simpa using hbk) hfap
              intro hcontra
              exact hΔk (List.append_eq_nil.mp hcontra).1
        · right
          have hfap' : fap = false := by
            revert hfap
            cases fap <;> simp
          refine ⟨false, Δk, ?_, fun _ => hΔ hfap', fun _ hft => absurd hft hfap⟩
          intro a
          rw [branchLoop, hfk a]
          show (if bk = true then branchLoop f fap ks b0 (a ++ Δk)
            else if fap = true then branchLoop f fap ks false (a ++ Δk)
            else some (false, a ++ Δk)) = _
          rw [if_neg hbk, if_neg hfap]

/-- Shape of the decidability walk: the verdict and the appended ambiguous
sequences do not depend on the accumulator; in decide mode the accumulator
is returned untouched, and in enumerate mode a `false` verdict appends at
least one sequence. -/
theorem reg_is_code_shape_aux (e : List (List Char)) :
    ∀ (fuel : Nat) (p0 p1 : Nat × Nat)
      (history : List ((Nat × Nat) × (Nat × Nat))) (fap : Bool) (path : List Char),
      (∀ a, reg_is_code e fuel p0 p1 history fap a path = none) ∨
      ∃ b Δ, (∀ a, reg_is_code e fuel p0 p1 history fap a path = some (b, a ++ Δ)) ∧
        (fap = false → Δ = []) ∧ (b = false → fap = true → Δ ≠ []) := by
  intro fuel
  induction fuel with
  | zero =>
    intro p0 p1 history fap path
    left
    intro a
    rfl
  | succ n ih =>
    intro p0 p1 history fap path
    by_cases hsp : sortPair p0 p1 ∈ history
    · right
      refine ⟨true, [], ?_, fun _ => rfl, fun hb _ => by cases hb⟩
      intro a
      rw [reg_is_code, if_pos hsp]
      simp
    · have hloop : ∀ (pfix : Nat × Nat),
          (∀ a, branchLoop
            (fun k acc => reg_is_code e n (k, 0) pfix (history ++ [sortPair p0 p1]) fap acc path)
            fap (List.range' 1 (e.length - 1)) true a = none) ∨
          ∃ b Δ, (∀ a, branchLoop
            (fun k acc => reg_is_code e n (k, 0) pfix (history ++ [sortPair p0 p1]) fap acc path)
            fap (List.range' 1 (e.length - 1)) true a = some (b, a ++ Δ)) ∧
            (fap = false → Δ = []) ∧ (b = false → fap = true → Δ ≠ []) := by
        intro pfix
        rcases branchLoop_shape _ fap (List.range' 1 (e.length - 1))
          (fun k _ => ih (k, 0) pfix (history ++ [sortPair p0 p1]) fap path) true with
          hnone | ⟨b, Δ, hbl, hΔ, hne⟩
        · exact Or.inl hnone
        · right
          refine ⟨b, Δ, hbl, hΔ, fun hb hfap => ?_⟩
          rcases hne hb hfap with h | h
          · cases h
          · exact h
      by_cases hb0 : p0 = (0, 0) ∨ (e.getD p0.1 []).length - 1 = p0.2
      · rcases hloop p1 with hnone | ⟨b, Δ, hbl, hΔ, hne⟩
        · left
          intro a
          rw [reg_is_code, if_neg hsp, if_pos hb0]
          exact hnone a
        · right
          refine ⟨b, Δ, ?_, hΔ, hne⟩
          intro a
          rw [reg_is_code, if_neg hsp, if_pos hb0]
          exact hbl a
      · by_cases hb1 : p1 = (0, 0) ∨ (e.getD p1.1 []).length - 1 = p1.2
        · rcases hloop p0 with hnone | ⟨b, Δ, hbl, hΔ, hne⟩
          · left
            intro a
            rw [reg_is_code, if_neg hsp, if_neg hb0, if_pos hb1]
            exact hnone a
          · right
            refine ⟨b, Δ, ?_, hΔ, hne⟩
            intro a
            rw [reg_is_code, if_neg hsp, if_neg hb0, if_pos hb1]
            exact hbl a
        · by_cases hc : (e.getD (p0.1, p0.2 + 1).1 []).getD (p0.1, p0.2 + 1).2 ROOT =
              (e.getD (p1.1, p1.2 + 1).1 []).getD (p1.1, p1.2 + 1).2 ROOT
          · by_cases hend : (e.getD (p0.1, p0.2 + 1).1 []).length - 1 = (p0.1, p0.2 + 1).2 ∧
                (e.getD (p1.1, p1.2 + 1).1 []).length - 1 = (p1.1, p1.2 + 1).2
            · right
              refine ⟨false,
                if fap then [path ++ [(e.getD (p0.1, p0.2 + 1).1 []).getD (p0.1, p0.2 + 1).2 ROOT]] else [],
                ?_, ?_, ?_⟩
              · intro a
                rw [reg_is_code, if_neg hsp, if_neg hb0, if_neg hb1, if_pos hc, if_pos hend]
                cases fap <;> simp
              · intro hfap
                rw [hfap]
                rfl
              · intro _ hfap
                rw [hfap]
                simp
            · rcases ih (p0.1, p0.2 + 1) (p1.1, p1.2 + 1)
                (history ++ [sortPair p0 p1]) fap
                (path ++ [(e.getD (p0.1, p0.2 + 1).1 []).getD (p0.1, p0.2 + 1).2 ROOT]) with
                hnone | ⟨b, Δ, hbl, hΔ, hne⟩
              · left
                intro a
                rw [reg_is_code, if_neg hsp, if_neg hb0, if_neg hb1, if_pos hc, if_neg hend]
                exact hnone a
              · right
                refine ⟨b, Δ, ?_, hΔ, hne⟩
                intro a
                rw [reg_is_code, if_neg hsp, if_neg hb0, if_neg hb1, if_pos hc, if_neg hend]
                exact hbl a
          · right
            refine ⟨true, [], ?_, fun _ => rfl, fun hb _ => by cases hb⟩
            intro a
            rw [reg_is_code, if_neg hsp, if_neg hb0, if_neg hb1, if_neg hc]
            simp

/-- In enumerate mode a loop started with a `false` running verdict keeps
it `false`. -/
theorem branchLoop_false_stays {α : Type}
    (f : α → List (List Char) → Option (Bool × List (List Char))) :
    ∀ (ks : List α) (acc : List (List Char)),
      branchLoop f true ks false acc = none ∨
      ∃ a, branchLoop f true ks false acc = some (false, a) := by
  intro ks
  induction ks with
  | nil => intro acc; right; exact ⟨acc, by simp [branchLoop]⟩
  | cons k ks ih =>
    intro acc
    cases hfk : f k acc with
    | none =>
      left
      rw [branchLoop, hfk]
    | some r =>
      obtain ⟨b, a'⟩ := r
      have hstep : branchLoop f true (k :: ks) false acc =
          branchLoop f true ks false a' := by
        rw [branchLoop, hfk]
        by_cases hb : b = true <;> simp [hb]
      rw [hstep]
      exact ih a'

/-- The verdict of the walk loop does not depend on the
`find_all_paths` flag, provided the enumerate-mode branches all return. -/
theorem branchLoop_flag {α : Type}
    (ff ft : α → List (List Char) → Option (Bool × List (List Char)))
    (ks : List α)
    (hflag : ∀ k ∈ ks, ∀ a a', (ff k a).map Prod.fst = (ft k a').map Prod.fst)
    (hsome : ∀ k ∈ ks, ∀ a, (ft k a).isSome) :
    ∀ (b0 : Bool) (a a' : List (List Char)),
      (branchLoop ff false ks b0 a).map Prod.fst =
      (branchLoop ft true ks b0 a').map Prod.fst := by
  induction ks with
  | nil => intro b0 a a'; simp [branchLoop]
  | cons k ks ih =>
    intro b0 a a'
    have h := hflag k (by simp) a a'
    cases hff : ff k a with
    | none =>
      exfalso
      cases hft : ft k a' with
      | none =>
        have hs := hsome k (by simp) a'
        rw [hft] at hs
        simp at hs
      | some rt =>
        rw [hff, hft] at h
        simp at h
    | some rf =>
      obtain ⟨bf, af⟩ := rf
      cases hft : ft k a' with
      | none =>
        exfalso
        have hs := hsome k (by simp) a'
        rw [hft] at hs
        simp at hs
      | some rt =>
        obtain ⟨bt, at'⟩ := rt
        rw [hff, hft] at h
        simp only [Option.map_some'] at h
        have hb : bf = bt := by injection h
        rw [branchLoop, branchLoop, hff, hft]
        by_cases hbt : bf = true
        · have hbt' : bt = true := by rw [← hb]; exact hbt
        
          rw [hbt, hbt']
          show (branchLoop ff false ks b0 af).map Prod.fst =
            (branchLoop ft true ks b0 at').map Prod.fst
          exact ih (fun x hx => hflag x (by simp [hx]))
            (fun x hx => hsome x (by simp [hx])) b0 af at'
        · have hbt' : ¬ bt = true := by rw [← hb]; exact hbt
          have hbf : bf = false := by revert hbt; cases bf <;> simp
          have hbtf : bt = false := by revert hbt'; cases bt <;> simp
          rw [hbf, hbtf]
          show (some (false, af)).map Prod.fst =
            (branchLoop ft true ks false at').map Prod.fst
          rcases branchLoop_false_stays ft ks at' with hnone | ⟨x, hx⟩
          · have hs := branchLoop_isSome ft true ks false at'
              (fun x hx => hsome x (by simp [hx]))
            rw [hnone] at hs
            simp at hs
          · rw [hx]
            rfl

/-- The verdict of the decidability walk does not depend on the
`find_all_paths` flag. -/
theorem reg_is_code_flag_aux (e : List (List Char)) (he : ∀ w ∈ e, w ≠ []) :
    ∀ (fuel : Nat) (p0 p1 : Nat × Nat)
      (history : List ((Nat × Nat) × (Nat × Nat))) (path : List Char)
      (a a' : List (List Char)),
      validPos e p0 → validPos e p1 → remaining e history < fuel →
      (reg_is_code e fuel p0 p1 history false a path).map Prod.fst =
      (reg_is_code e fuel p0 p1 history true a' path).map Prod.fst := by
  intro fuel
  induction fuel with
  | zero => intro _ _ _ _ _ _ _ _ h; omega
  | succ n ih =>
    intro p0 p1 history path a a' h0 h1 hrem
    by_cases hsp : sortPair p0 p1 ∈ history
    · rw [reg_is_code, reg_is_code, if_pos hsp, if_pos hsp]
      rfl
    · have hmem := sortPair_mem_allPairs e p0 p1 h0 h1
      have hdec := remaining_decrease e history _ hmem hsp
      have hrem' : remaining e (history ++ [sortPair p0 p1]) < n := by omega
      by_cases hb0 : p0 = (0, 0) ∨ (e.getD p0.1 []).length - 1 = p0.2
      · rw [reg_is_code, reg_is_code, if_neg hsp, if_neg hsp, if_pos hb0, if_pos hb0]
        exact branchLoop_flag _ _ _
          (fun k hk x x' => ih (k, 0) p1 _ path x x'
            (restart_validPos e he k hk) h1 hrem')
          (fun k hk x => reg_is_code_isSome_aux e he n (k, 0) p1 _ true x path
            (restart_validPos e he k hk) h1 hrem')
          true a a'
      · by_cases hb1 : p1 = (0, 0) ∨ (e.getD p1.1 []).length - 1 = p1.2
        · rw [reg_is_code, reg_is_code, if_neg hsp, if_neg hsp, if_neg hb0,
            if_neg hb0, if_pos hb1, if_pos hb1]
          exact branchLoop_flag _ _ _
            (fun k hk x x' => ih (k, 0) p0 _ path x x'
              (restart_validPos e he k hk) h0 hrem')
            (fun k hk x => reg_is_code_isSome_aux e he n (k, 0) p0 _ true x path
              (restart_validPos e he k hk) h0 hrem')
            true a a'
        · have hq0 : validPos e (p0.1, p0.2 + 1) := by
            refine ⟨h0.1, ?_⟩
            show p0.2 + 1 < (e.getD p0.1 []).length
            have hlen : 1 ≤ (e.getD p0.1 []).length :=
              List.length_pos.mpr (he _ (getD_mem_of_lt e p0.1 [] h0.1))
            have := h0.2
            have hne : (e.getD p0.1 []).length - 1 ≠ p0.2 := fun hc => hb0 (Or.inr hc)
            omega
          have hq1 : validPos e (p1.1, p1.2 + 1) := by
            refine ⟨h1.1, ?_⟩
            show p1.2 + 1 < (e.getD p1.1 []).length
            have hlen : 1 ≤ (e.getD p1.1 []).length :=
              List.length_pos.mpr (he _ (getD_mem_of_lt e p1.1 [] h1.1))
            have := h1.2
            have hne : (e.getD p1.1 []).length - 1 ≠ p1.2 := fun hc => hb1 (Or.inr hc)
            omega
          rw [reg_is_code, reg_is_code, if_neg hsp, if_neg hsp, if_neg hb0,
            if_neg hb0, if_neg hb1, if_neg hb1]
          by_cases hc : (e.getD (p0.1, p0.2 + 1).1 []).getD (p0.1, p0.2 + 1).2 ROOT =
              (e.getD (p1.1, p1.2 + 1).1 []).getD (p1.1, p1.2 + 1).2 ROOT
          · rw [if_pos hc, if_pos hc]
            by_cases hend : (e.getD (p0.1, p0.2 + 1).1 []).length - 1 = (p0.1, p0.2 + 1).2 ∧
                (e.getD (p1.1, p1.2 + 1).1 []).length - 1 = (p1.1, p1.2 + 1).2
            · rw [if_pos hend, if_pos hend]
              rfl
            · rw [if_neg hend, if_neg hend]
              exact ih (p0.1, p0.2 + 1) (p1.1, p1.2 + 1) _ _ a a' hq0 hq1 hrem'
          · rw [if_neg hc, if_neg hc]
            rfl

/-- Elements collected by a `branchLoop` run are either inherited from the
starting accumulator or are good (for any branch-wise goodness `P`). -/
theorem branchLoop_sound {α : Type}
    (f : α → List (List Char) → Option (Bool × List (List Char))) (fap : Bool)
    (P : List Char → Prop) (ks : List α)
    (hf : ∀ k ∈ ks, ∀ a b l, f k a = some (b, l) → ∀ s ∈ l, s ∈ a ∨ P s) :
    ∀ (b0 : Bool) (acc : List (List Char)) (b : Bool) (l : List (List Char)),
      branchLoop f fap ks b0 acc = some (b, l) → ∀ s ∈ l, s ∈ acc ∨ P s := by
  induction ks with
  | nil =>
    intro b0 acc b l hbl s hs
    rw [branchLoop] at hbl
    simp only [Option.some.injEq, Prod.mk.injEq] at hbl
    left
    rw [hbl.2]
    exact hs
  | cons k ks ih =>
    intro b0 acc b l hbl s hs
    cases hfk : f k acc with
    | none =>
      rw [branchLoop, hfk] at hbl
      cases hbl
    | some r =>
      obtain ⟨bk, ak⟩ := r
      have hstep : ∀ s ∈ ak, s ∈ acc ∨ P s := hf k (by simp) acc bk ak hfk
      have hform : branchLoop f fap (k :: ks) b0 acc =
          (if bk = true then branchLoop f fap ks b0 ak
            else if fap = true then branchLoop f fap ks false ak
            else some (false, ak)) := by
        rw [branchLoop, hfk]
      rw [hform] at hbl
      have hchain : ∀ x ∈ l, x ∈ ak ∨ P x → x ∈ acc ∨ P x := by
        intro x _ hx
        rcases hx with hx | hx
        · exact hstep x hx
        · exact Or.inr hx
      by_cases hbk : bk = true
      · rw [if_pos hbk] at hbl
        exact hchain s hs (ih (fun x hx => hf x (by simp [hx])) b0 ak b l hbl s hs)
      · rw [if_neg hbk] at hbl
        by_cases hfap : fap = true
        · rw [if_pos hfap] at hbl
          exact hchain s hs (ih (fun x hx => hf x (by simp [hx])) false ak b l hbl s hs)
        · rw [if_neg hfap] at hbl
          simp only [Option.some.injEq, Prod.mk.injEq] at hbl
          rw [← hbl.2] at hs
          exact hstep s hs

/-- The head of a non-empty prefix survives an append. -/
theorem head?_append_left {α : Type} (xs ys : List α) (h : xs ≠ []) :
    (xs ++ ys).head? = xs.head? := by
  cases xs with
  | nil => exact absurd rfl h
  | cons a as => rfl

/-- Length of the word at a sequence index. -/
theorem wAt_length (e : List (List Char)) (i : Nat) :
    (wAt e i).length = (e.getD i []).length - 1 := by
  unfold wAt
  exact List.length_tail _

/-- Entry `n + 1` of a non-empty sequence is entry `n` of its word. -/
theorem getD_wAt (e : List (List Char)) (i n : Nat) (h : e.getD i [] ≠ []) :
    (e.getD i []).getD (n + 1) ROOT = (wAt e i).getD n ROOT := by
  unfold wAt
  cases hw : e.getD i [] with
  | nil => exact absurd hw h
  | cons a as => rfl

/-- Flattening after appending one more word index. -/
theorem flat_append_word (e : List (List Char)) (us : List Nat) (i : Nat) :
    ((us ++ [i]).map (wAt e)).flatten = (us.map (wAt e)).flatten ++ wAt e i := by
  simp

/-- Taking a full word is the word. -/
theorem take_complete (e : List (List Char)) (i : Nat) (p2 : Nat)
    (hlen : (e.getD i []).length - 1 = p2) :
    (wAt e i).take p2 = wAt e i := by
  have h : (wAt e i).length = p2 := by rw [wAt_length, hlen]
  rw [← h, List.take_length]

/-- Extending a taken prefix by its next entry. -/
theorem take_succ_getD {α : Type} (l : List α) (n : Nat) (d : α)
    (h : n < l.length) :
    l.take (n + 1) = l.take n ++ [l.getD n d] := by
  rw [List.take_succ]
  congr 1
  rw [List.getElem?_eq_getElem h, List.getD_eq_getElem?_getD,
    List.getElem?_eq_getElem h]
  rfl

/-- Soundness of the enumerate-mode decidability walk: under the walk
invariant, every collected sequence not inherited from the accumulator is
witnessed by two distinct index walks. -/
theorem reg_is_code_sound_aux (e : List (List Char)) (he : ∀ w ∈ e, w ≠ []) :
    ∀ (fuel : Nat) (p0 p1 : Nat × Nat)
      (history : List ((Nat × Nat) × (Nat × Nat)))
      (acc : List (List Char)) (path : List Char) (b : Bool)
      (l : List (List Char)),
      WalkInv e p0 p1 path →
      reg_is_code e fuel p0 p1 history true acc path = some (b, l) →
      ∀ s ∈ l, s ∈ acc ∨ TwoWalkDecomps e s := by
  intro fuel
  induction fuel with
  | zero =>
    intro p0 p1 history acc path b l _ hrun
    cases hrun
  | succ n ih =>
    intro p0 p1 history acc path b l hinv hrun
    obtain ⟨hp0a, h0, hp1a, h1, us0, us1, hv0, hv1, hpath0, hpath1, hhead⟩ := hinv
    have hw0ne : e.getD p0.1 [] ≠ [] := he _ (getD_mem_of_lt e p0.1 [] h0.1)
    have hw1ne : e.getD p1.1 [] ≠ [] := he _ (getD_mem_of_lt e p1.1 [] h1.1)
    by_cases hsp : sortPair p0 p1 ∈ history
    · rw [reg_is_code, if_pos hsp] at hrun
      simp only [Option.some.injEq, Prod.mk.injEq] at hrun
      intro s hs
      left
      rw [hrun.2]
      exact hs
    · by_cases hb0 : p0 = (0, 0) ∨ (e.getD p0.1 []).length - 1 = p0.2
      · have hcomplete : (e.getD p0.1 []).length - 1 = p0.2 := by
          rcases hb0 with hz | hc
          · exfalso
            have : p0.1 = 0 := by rw [hz]
            omega
          · exact hc
        rw [reg_is_code, if_neg hsp, if_pos hb0] at hrun
        refine branchLoop_sound _ true (TwoWalkDecomps e) _ ?_ true acc b l hrun
        intro k hk a bk lk hrunk s hs
        refine ih (k, 0) p1 _ a path bk lk ?_ hrunk s hs
        have hkv := restart_validPos e he k hk
        rw [List.mem_range'] at hk
        obtain ⟨i, hi, hki⟩ := hk
        refine ⟨by omega, hkv, hp1a, h1, us0 ++ [p0.1], us1, ?_, hv1, ?_, hpath1, ?_⟩
        · intro u hu
          rcases List.mem_append.mp hu with hu | hu
          · exact hv0 u hu
          · have : u = p0.1 := by simpa using hu
            rw [this]
            exact ⟨hp0a, h0.1⟩
        · show path = ((us0 ++ [p0.1]).map (wAt e)).flatten ++ (wAt e k).take 0
          rw [flat_append_word, List.take_zero, List.append_nil]
          rw [hpath0, take_complete e p0.1 p0.2 hcomplete]
        · show ((us0 ++ [p0.1]) ++ [k]).head? ≠ (us1 ++ [p1.1]).head?
          rw [head?_append_left (us0 ++ [p0.1]) [k] (by simp)]
          exact hhead
      · by_cases hb1 : p1 = (0, 0) ∨ (e.getD p1.1 []).length - 1 = p1.2
        · have hcomplete : (e.getD p1.1 []).length - 1 = p1.2 := by
            rcases hb1 with hz | hc
            · exfalso
              have : p1.1 = 0 := by rw [hz]
              omega
            · exact hc
          rw [reg_is_code, if_neg hsp, if_neg hb0, if_pos hb1] at hrun
          refine branchLoop_sound _ true (TwoWalkDecomps e) _ ?_ true acc b l hrun
          intro k hk a bk lk hrunk s hs
          refine ih (k, 0) p0 _ a path bk lk ?_ hrunk s hs
          have hkv := restart_validPos e he k hk
          rw [List.mem_range'] at hk
          obtain ⟨i, hi, hki⟩ := hk
          refine ⟨by omega, hkv, hp0a, h0, us1 ++ [p1.1], us0, ?_, hv0, ?_, hpath0, ?_⟩
          · intro u hu
            rcases List.mem_append.mp hu with hu | hu
            · exact hv1 u hu
            · have : u = p1.1 := by simpa using hu
              rw [this]
              exact ⟨hp1a, h1.1⟩
          · show path = ((us1 ++ [p1.1]).map (wAt e)).flatten ++ (wAt e k).take 0
            rw [flat_append_word, List.take_zero, List.append_nil]
            rw [hpath1, take_complete e p1.1 p1.2 hcomplete]
          · show ((us1 ++ [p1.1]) ++ [k]).head? ≠ (us0 ++ [p0.1]).head?
            rw [head?_append_left (us1 ++ [p1.1]) [k] (by simp)]
            exact fun hcontra => hhead hcontra.symm
        · have hlt0 : p0.2 < (wAt e p0.1).length := by
            rw [wAt_length]
            have hlen : 1 ≤ (e.getD p0.1 []).length := List.length_pos.mpr hw0ne
            have := h0.2
            have hne : (e.getD p0.1 []).length - 1 ≠ p0.2 := fun hc => hb0 (Or.inr hc)
            omega
          have hlt1 : p1.2 < (wAt e p1.1).length := by
            rw [wAt_length]
            have hlen : 1 ≤ (e.getD p1.1 []).length := List.length_pos.mpr hw1ne
            have := h1.2
            have hne : (e.getD p1.1 []).length - 1 ≠ p1.2 := fun hc => hb1 (Or.inr hc)
            omega
          rw [reg_is_code, if_neg hsp, if_neg hb0, if_neg hb1] at hrun
          by_cases hc : (e.getD (p0.1, p0.2 + 1).1 []).getD (p0.1, p0.2 + 1).2 ROOT =
              (e.getD (p1.1, p1.2 + 1).1 []).getD (p1.1, p1.2 + 1).2 ROOT
          · rw [if_pos hc] at hrun
            have hc0 : (e.getD (p0.1, p0.2 + 1).1 []).getD (p0.1, p0.2 + 1).2 ROOT =
                (wAt e p0.1).getD p0.2 ROOT := getD_wAt e p0.1 p0.2 hw0ne
            have hc1 : (e.getD (p1.1, p1.2 + 1).1 []).getD (p1.1, p1.2 + 1).2 ROOT =
                (wAt e p1.1).getD p1.2 ROOT := getD_wAt e p1.1 p1.2 hw1ne
            have hpath0' : path ++ [(e.getD (p0.1, p0.2 + 1).1 []).getD (p0.1, p0.2 + 1).2 ROOT] =
                (us0.map (wAt e)).flatten ++ (wAt e p0.1).take (p0.2 + 1) := by
              rw [hc0, take_succ_getD (wAt e p0.1) p0.2 ROOT hlt0]
              rw [hpath0, List.append_assoc]
            have hpath1' : path ++ [(e.getD (p0.1, p0.2 + 1).1 []).getD (p0.1, p0.2 + 1).2 ROOT] =
                (us1.map (wAt e)).flatten ++ (wAt e p1.1).take (p1.2 + 1) := by
              rw [hc, hc1, take_succ_getD (wAt e p1.1) p1.2 ROOT hlt1]
              rw [hpath1, List.append_assoc]
            by_cases hend : (e.getD (p0.1, p0.2 + 1).1 []).length - 1 = (p0.1, p0.2 + 1).2 ∧
                (e.getD (p1.1, p1.2 + 1).1 []).length - 1 = (p1.1, p1.2 + 1).2
            · rw [if_pos hend] at hrun
              simp only [if_pos, Option.some.injEq, Prod.mk.injEq] at hrun
              intro s hs
              rw [← hrun.2] at hs
              rcases List.mem_append.mp hs with hs | hs
              · exact Or.inl hs
              · right
                have hseq : s = path ++
                    [(e.getD (p0.1, p0.2 + 1).1 []).getD (p0.1, p0.2 + 1).2 ROOT] := by
                  simpa using hs
                refine ⟨us0 ++ [p0.1], us1 ++ [p1.1], ?_, ?_, ?_, ?_, ?_⟩
                · intro u hu
                  rcases List.mem_append.mp hu with hu | hu
                  · exact hv0 u hu
                  · have : u = p0.1 := by simpa using hu
                    rw [this]
                    exact ⟨hp0a, h0.1⟩
                · intro u hu
                  rcases List.mem_append.mp hu with hu | hu
                  · exact hv1 u hu
                  · have : u = p1.1 := by simpa using hu
                    rw [this]
                    exact ⟨hp1a, h1.1⟩
                · intro hcontra
                  exact hhead (by rw [hcontra])
                · rw [flat_append_word, hseq, hpath0']
                  congr 1
                  exact (take_complete e p0.1 (p0.2 + 1) hend.1).symm
                · rw [flat_append_word, hseq, hpath1']
                  congr 1
                  exact (take_complete e p1.1 (p1.2 + 1) hend.2).symm
            · rw [if_neg hend] at hrun
              refine ih (p0.1, p0.2 + 1) (p1.1, p1.2 + 1) _ acc _ b l ?_ hrun
              refine ⟨hp0a, ?_, hp1a, ?_, us0, us1, hv0, hv1, ?_, ?_, hhead⟩
              · refine ⟨h0.1, ?_⟩
                show p0.2 + 1 < (e.getD p0.1 []).length
                rw [wAt_length] at hlt0
                omega
              · refine ⟨h1.1, ?_⟩
                show p1.2 + 1 < (e.getD p1.1 []).length
                rw [wAt_length] at hlt1
                omega
              · exact hpath0'
              · exact hpath1'
          · rw [if_neg hc] at hrun
            simp only [Option.some.injEq, Prod.mk.injEq] at hrun
            intro s hs
            left
            rw [hrun.2]
            exact hs

/-- Every sequence of the decidability graph is non-empty (each carries the
root symbol). -/
theorem codeGraphE_ne_nil (c : CircCode) : ∀ w ∈ codeGraphE c, w ≠ [] := by
  intro w hw
  rcases List.mem_cons.mp hw with h | h
  · rw [h]
    simp
  · obtain ⟨x, _, hx⟩ := List.mem_map.mp h
    rw [← hx]
    simp

/-- Length of a `flatMap`. -/
theorem length_flatMap' {α β : Type} (g : α → List β) :
    ∀ l : List α, (l.flatMap g).length = (l.map (fun a => (g a).length)).sum := by
  intro l
  induction l with
  | nil => simp
  | cons a as ih => simp [List.flatMap_cons, ih]

/-- The position enumeration has exactly `posCount` entries. -/
theorem length_allPositions (e : List (List Char)) :
    (allPositions e).length = posCount e := by
  unfold allPositions posCount
  rw [length_flatMap']
  simp only [List.length_map, List.length_range]
  induction e with
  | nil => simp
  | cons w e' ih =>
    rw [List.length_cons, List.range_succ_eq_map, List.map_cons, List.map_map]
    have hfun : ((fun a => ((w :: e').getD a []).length) ∘ Nat.succ) =
        fun a => (e'.getD a []).length := funext (fun a => rfl)
    rw [hfun, List.map_cons, List.sum_cons, List.sum_cons, ih]
    rfl

/-- Length of the pair enumeration. -/
theorem length_product' {γ δ : Type} (l1 : List γ) (l2 : List δ) :
    (l1.product l2).length = l1.length * l2.length := by
  unfold List.product
  rw [length_flatMap']
  simp only [List.length_map]
  induction l1 with
  | nil => simp
  | cons a as ih =>
    rw [List.map_cons, List.sum_cons, ih, List.length_cons]
    ring

/-- The starting history leaves fewer pairs than the chosen fuel. -/
theorem remaining_nil_lt (e : List (List Char)) :
    remaining e [] < codeFuel e := by
  unfold remaining codeFuel
  have hfilter : (allPairs e).filter (fun x => x ∉ ([] : List ((Nat × Nat) × (Nat × Nat)))) =
      allPairs e := by
    rw [List.filter_eq_self]
    intro a _
    simp
  rw [hfilter]
  unfold allPairs
  rw [length_product', length_allPositions]
  omega

/-- Bounds of the enumerated word pairs. -/
theorem pairsIdx_bounds (e : List (List Char)) :
    ∀ ij ∈ pairsIdx e, 1 ≤ ij.1 ∧ ij.1 < ij.2 ∧ ij.2 < e.length := by
  intro ij hij
  unfold pairsIdx at hij
  simp only [List.mem_flatMap, List.mem_map, List.mem_range'] at hij
  obtain ⟨i, ⟨ik, hik, hieq⟩, j, ⟨jk, hjk, hjeq⟩, hij'⟩ := hij
  rw [← hij']
  refine ⟨by omega, by omega, by omega⟩

/-- Both walkers of a starting pair sit at valid first positions. -/
theorem pairsIdx_validPos (e : List (List Char)) (he : ∀ w ∈ e, w ≠ [])
    (ij : Nat × Nat) (hij : ij ∈ pairsIdx e) :
    validPos e (ij.1, 0) ∧ validPos e (ij.2, 0) ∧ ij.1 ≠ ij.2 := by
  obtain ⟨h1, h2, h3⟩ := pairsIdx_bounds e ij hij
  have hv : ∀ k : Nat, k < e.length → validPos e (k, 0) := by
    intro k hk
    exact ⟨hk, List.length_pos.mpr (he _ (getD_mem_of_lt e k [] hk))⟩
  exact ⟨hv ij.1 (by omega), hv ij.2 h3, by omega⟩

/-- `start_reg_is_code` always returns, in both modes. -/
theorem start_reg_is_code_isSome (e : List (List Char))
    (he : ∀ w ∈ e, w ≠ []) (fap : Bool) :
    (start_reg_is_code e fap).isSome := by
  unfold start_reg_is_code
  apply branchLoop_isSome
  intro ij hij a
  obtain ⟨hv0, hv1, _⟩ := pairsIdx_validPos e he ij hij
  exact reg_is_code_isSome_aux e he (codeFuel e) (ij.1, 0) (ij.2, 0) [] fap a []
    hv0 hv1 (remaining_nil_lt e)

/-- The two modes of `start_reg_is_code` agree on the verdict. -/
theorem start_reg_is_code_flag (e : List (List Char)) (he : ∀ w ∈ e, w ≠ []) :
    (start_reg_is_code e false).map Prod.fst =
    (start_reg_is_code e true).map Prod.fst := by
  unfold start_reg_is_code
  apply branchLoop_flag
  · intro ij hij a a'
    obtain ⟨hv0, hv1, _⟩ := pairsIdx_validPos e he ij hij
    exact reg_is_code_flag_aux e he (codeFuel e) (ij.1, 0) (ij.2, 0) [] [] a a'
      hv0 hv1 (remaining_nil_lt e)
  · intro ij hij a
    obtain ⟨hv0, hv1, _⟩ := pairsIdx_validPos e he ij hij
    exact reg_is_code_isSome_aux e he (codeFuel e) (ij.1, 0) (ij.2, 0) [] true a []
      hv0 hv1 (remaining_nil_lt e)

/-- A `false` enumerate-mode verdict comes with a non-empty sequence
list. -/
theorem start_reg_is_code_ne_nil (e : List (List Char)) (b : Bool)
    (l : List (List Char))
    (hrun : start_reg_is_code e true = some (b, l)) (hb : b = false) :
    l ≠ [] := by
  unfold start_reg_is_code at hrun
  rcases branchLoop_shape _ true (pairsIdx e)
    (fun ij _ => reg_is_code_shape_aux e (codeFuel e) (ij.1, 0) (ij.2, 0) [] true [])
    true with hnone | ⟨b', Δ, hbl, _, hne⟩
  · rw [hnone []] at hrun
    cases hrun
  · rw [hbl []] at hrun
    simp only [List.nil_append, Option.some.injEq, Prod.mk.injEq] at hrun
    rcases hne (by rw [hrun.1, hb]) rfl with hcontra | hok
    · cases hcontra
    · rw [← hrun.2]
      exact hok

/-- Every sequence collected by the top-level enumerate run is witnessed by
two distinct index walks. -/
theorem start_reg_is_code_sound (e : List (List Char)) (he : ∀ w ∈ e, w ≠ [])
    (b : Bool) (l : List (List Char))
    (hrun : start_reg_is_code e true = some (b, l)) :
    ∀ s ∈ l, TwoWalkDecomps e s := by
  intro s hs
  unfold start_reg_is_code at hrun
  have hsound := branchLoop_sound _ true (TwoWalkDecomps e) (pairsIdx e) ?hf
    true [] b l hrun s hs
  case hf =>
    intro ij hij a bk lk hrunk t ht
    obtain ⟨hv0, hv1, hne⟩ := pairsIdx_validPos e he ij hij
    refine reg_is_code_sound_aux e he (codeFuel e) (ij.1, 0) (ij.2, 0) [] a []
      bk lk ?_ hrunk t ht
    obtain ⟨h1, h2, h3⟩ := pairsIdx_bounds e ij hij
    refine ⟨h1, hv0, by omega, hv1, [], [], by simp, by simp, by simp, by simp, ?_⟩
    simp only [List.nil_append, List.head?_cons]
    intro hcontra
    apply hne
    injection hcontra
  rcases hsound with h | h
  · cases h
  · exact h

/-- The graph word at a non-root index of `codeGraphE` is the corresponding
code word. -/
theorem wAt_codeGraphE (c : CircCode) (u : Nat) (h1 : 1 ≤ u)
    (h2 : u < (codeGraphE c).length) :
    wAt (codeGraphE c) u = c.code.getD (u - 1) [] := by
  obtain ⟨v, rfl⟩ : ∃ v, u = v + 1 := ⟨u - 1, by omega⟩
  have hv : v < c.code.length := by
    have : (codeGraphE c).length = c.code.length + 1 := by simp [codeGraphE]
    omega
  unfold wAt codeGraphE
  show ((c.code.map (fun w => ROOT :: w)).getD v []).tail = c.code.getD (v + 1 - 1) []
  rw [List.getD_eq_getElem?_getD, List.getElem?_eq_getElem (by simpa using hv)]
  rw [List.getElem_map]
  show (ROOT :: c.code[v]).tail = _
  rw [List.getD_eq_getElem?_getD, List.getElem?_eq_getElem (by simpa using hv)]
  rfl

/-- Distinct valid indices name distinct words when the word list is
duplicate-free. -/
theorem wAt_inj_of_nodup (c : CircCode) (hnd : c.code.Nodup)
    (u1 u2 : Nat) (h11 : 1 ≤ u1) (h12 : u1 < (codeGraphE c).length)
    (h21 : 1 ≤ u2) (h22 : u2 < (codeGraphE c).length)
    (heq : wAt (codeGraphE c) u1 = wAt (codeGraphE c) u2) : u1 = u2 := by
  rw [wAt_codeGraphE c u1 h11 h12, wAt_codeGraphE c u2 h21 h22] at heq
  have hlen : (codeGraphE c).length = c.code.length + 1 := by simp [codeGraphE]
  have hv1 : u1 - 1 < c.code.length := by omega
  have hv2 : u2 - 1 < c.code.length := by omega
  rw [List.getD_eq_getElem?_getD, List.getElem?_eq_getElem hv1,
    List.getD_eq_getElem?_getD, List.getElem?_eq_getElem hv2] at heq
  have hinj := List.nodup_iff_injective_get.mp hnd
  have := @hinj ⟨u1 - 1, hv1⟩ ⟨u2 - 1, hv2⟩ (by simpa using heq)
  have hfin : u1 - 1 = u2 - 1 := by
    have h := this
    injection h
  omega

/-- Index-walk lists with equal word images are equal (duplicate-free word
list). -/
theorem walk_map_inj (c : CircCode) (hnd : c.code.Nodup) :
    ∀ (us0 us1 : List Nat),
      (∀ u ∈ us0, 1 ≤ u ∧ u < (codeGraphE c).length) →
      (∀ u ∈ us1, 1 ≤ u ∧ u < (codeGraphE c).length) →
      us0.map (wAt (codeGraphE c)) = us1.map (wAt (codeGraphE c)) →
      us0 = us1 := by
  intro us0
  induction us0 with
  | nil =>
    intro us1 _ _ h
    cases us1 with
    | nil => rfl
    | cons b bs => cases h
  | cons a as ih =>
    intro us1 hv0 hv1 h
    cases us1 with
    | nil => cases h
    | cons b bs =>
      simp only [List.map_cons, List.cons.injEq] at h
      have ha := hv0 a (by simp)
      have hb := hv1 b (by simp)
      have hab : a = b := wAt_inj_of_nodup c hnd a b ha.1 ha.2 hb.1 hb.2 h.1
      rw [hab, ih bs (fun u hu => hv0 u (by simp [hu]))
        (fun u hu => hv1 u (by simp [hu])) h.2]

/-- A two-walk witness over the decidability graph yields two distinct
decompositions into code words when the word list is duplicate-free. -/
theorem twoWalk_to_twoDecomp (c : CircCode) (hnd : c.code.Nodup)
    (s : List Char) (h : TwoWalkDecomps (codeGraphE c) s) :
    TwoDistinctDecomps c.code s := by
  obtain ⟨us0, us1, hv0, hv1, hne, hf0, hf1⟩ := h
  have hlen : (codeGraphE c).length = c.code.length + 1 := by simp [codeGraphE]
  have hmem : ∀ us : List Nat, (∀ u ∈ us, 1 ≤ u ∧ u < (codeGraphE c).length) →
      ∀ w ∈ us.map (wAt (codeGraphE c)), w ∈ c.code := by
    intro us hus w hw
    obtain ⟨u, hu, huw⟩ := List.mem_map.mp hw
    have hub := hus u hu
    rw [← huw, wAt_codeGraphE c u hub.1 hub.2]
    exact getD_mem_of_lt c.code (u - 1) [] (by omega)
  refine ⟨us0.map (wAt (codeGraphE c)), us1.map (wAt (codeGraphE c)),
    ⟨hmem us0 hv0, hf0⟩, ⟨hmem us1 hv1, hf1⟩, ?_⟩
  intro hcontra
  exact hne (walk_map_inj c hnd us0 us1 hv0 hv1 hcontra)

/-- Any decomposition of the one-letter sequence `A` into words of the
duplicated code `{A, B, A}` is the single word `A`. -/
theorem decomp_A_unique :
    ∀ d : List (List Char), (∀ w ∈ d, w ∈ [['A'], ['B'], ['A']]) →
      d.flatten = ['A'] → d = [['A']] := by
  intro d
  induction d with
  | nil =>
    intro _ h
    simp at h
  | cons w rest _ih =>
    intro hmem hflat
    have hw := hmem w (by simp)
    simp only [List.mem_cons, List.mem_singleton, List.not_mem_nil, or_false] at hw
    rcases hw with hw | hw | hw
    · rw [hw] at hflat ⊢
      simp only [List.flatten_cons, List.singleton_append, List.cons.injEq] at hflat
      have hrest : rest.flatten = [] := hflat.2
      have hnil : rest = [] := by
        cases rest with
        | nil => rfl
        | cons w' r' =>
          exfalso
          have hw' := hmem w' (by simp)
          simp only [List.mem_cons, List.mem_singleton, List.not_mem_nil,
            or_false] at hw'
          simp only [List.flatten_cons, List.append_eq_nil] at hrest
          rcases hw' with h | h | h <;> rw [h] at hrest <;> simp at hrest
      rw [hnil]
    · exfalso
      rw [hw] at hflat
      simp at hflat
    · rw [hw] at hflat ⊢
      simp only [List.flatten_cons, List.singleton_append, List.cons.injEq] at hflat
      have hrest : rest.flatten = [] := hflat.2
      have hnil : rest = [] := by
        cases rest with
        | nil => rfl
        | cons w' r' =>
          exfalso
          have hw' := hmem w' (by simp)
          simp only [List.mem_cons, List.mem_singleton, List.not_mem_nil,
            or_false] at hw'
          simp only [List.flatten_cons, List.append_eq_nil] at hrest
          rcases hw' with h | h | h <;> rw [h] at hrest <;> simp at hrest
      rw [hnil]

set_option maxRecDepth 8000 in
/-- C1 counterexample: the public constructor keeps the non-adjacent
duplicate word `A` in `{A, B, A}`; on the resulting code the ambiguity walk
pairs the two copies of `A`, reports the code invalid, and returns the
sequence `A` — which has only one decomposition into words of the code, so
the claim that every returned sequence has at least two distinct
decompositions fails. -/
theorem C1_single_decomposition_counterexample :
    new_from_vec [['A'], ['B'], ['A']] =
      .ok ⟨"unknown", [['A'], ['B'], ['A']], [1], ['A', 'B']⟩ ∧
    all_ambiguous_sequences ⟨"unknown", [['A'], ['B'], ['A']], [1], ['A', 'B']⟩ =
      some (false, [['A']]) ∧
    is_code ⟨"unknown", [['A'], ['B'], ['A']], [1], ['A', 'B']⟩ = some false ∧
    ¬ TwoDistinctDecomps [['A'], ['B'], ['A']] ['A'] := by
  refine ⟨by decide, by decide, by decide, ?_⟩
  rintro ⟨d1, d2, ⟨hm1, hf1⟩, ⟨hm2, hf2⟩, hne⟩
  have h1 := decomp_A_unique d1 hm1 hf1
  have h2 := decomp_A_unique d2 hm2 hf2
  exact hne (h1.trans h2.symm)

/-- C1 amended (proved): for every code value, the enumerate run returns a
verdict and list, the decide-mode `is_code` agrees with that verdict, a
`false` verdict comes with a non-empty list, and — provided the word list
is duplicate-free, as the constructors were meant to guarantee — every
returned sequence has at least two distinct decompositions into words of
the code. -/
theorem C1_verdicts_and_decompositions (c : CircCode) :
    ∃ b l, all_ambiguous_sequences c = some (b, l) ∧ is_code c = some b ∧
      (b = false → l ≠ []) ∧
      (c.code.Nodup → ∀ s ∈ l, TwoDistinctDecomps c.code s) := by
  have he := codeGraphE_ne_nil c
  have hsome := start_reg_is_code_isSome (codeGraphE c) he true
  obtain ⟨r, heq⟩ := Option.isSome_iff_exists.mp hsome
  obtain ⟨b, l⟩ := r
  refine ⟨b, l, heq, ?_, ?_, ?_⟩
  · show (start_reg_is_code (codeGraphE c) false).map Prod.fst = some b
    rw [start_reg_is_code_flag (codeGraphE c) he, heq]
    rfl
  · intro hb
    exact start_reg_is_code_ne_nil (codeGraphE c) b l heq hb
  · intro hnd s hs
    exact twoWalk_to_twoDecomp c hnd s
      (start_reg_is_code_sound (codeGraphE c) he b l heq s hs)

/-- Witness for the amended C1 at the duplicate-free code `{ABAB, AB}`. -/
theorem C1_verdicts_witness :
    ∃ b l, all_ambiguous_sequences
        ⟨"unknown", [['A', 'B', 'A', 'B'], ['A', 'B']], [2, 4], ['A', 'B']⟩ =
        some (b, l) ∧
      is_code ⟨"unknown", [['A', 'B', 'A', 'B'], ['A', 'B']], [2, 4], ['A', 'B']⟩ =
        some b ∧
      (b = false → l ≠ []) ∧
      ((⟨"unknown", [['A', 'B', 'A', 'B'], ['A', 'B']], [2, 4],
          ['A', 'B']⟩ : CircCode).code.Nodup →
        ∀ s ∈ l, TwoDistinctDecomps
          (⟨"unknown", [['A', 'B', 'A', 'B'], ['A', 'B']], [2, 4],
            ['A', 'B']⟩ : CircCode).code s) :=
  C1_verdicts_and_decompositions
    ⟨"unknown", [['A', 'B', 'A', 'B'], ['A', 'B']], [2, 4], ['A', 'B']⟩

/-- C9 (confirmed): the decidability walk terminates on every branch — any
fuel exceeding the number of distinct valid sorted position pairs not yet
recorded in the history is never exhausted (each non-returning step records
a fresh pair), and in particular the top-level runs in both modes return. -/
theorem C9_recursion_terminates (e : List (List Char)) (he : ∀ w ∈ e, w ≠ [])
    (fuel : Nat) (p0 p1 : Nat × Nat)
    (history : List ((Nat × Nat) × (Nat × Nat))) (fap : Bool)
    (acc : List (List Char)) (path : List Char)
    (h0 : validPos e p0) (h1 : validPos e p1)
    (hfuel : remaining e history < fuel) :
    (reg_is_code e fuel p0 p1 history fap acc path).isSome ∧
    (start_reg_is_code e fap).isSome :=
  ⟨reg_is_code_isSome_aux e he fuel p0 p1 history fap acc path h0 h1 hfuel,
   start_reg_is_code_isSome e he fap⟩

/-- Witness for C9 on the graph sequences of the code `{AB}`. -/
theorem C9_recursion_terminates_witness :
    (reg_is_code [['_'], ['_', 'A', 'B']] 17 (1, 0) (1, 0) [] true [] []).isSome ∧
    (start_reg_is_code [['_'], ['_', 'A', 'B']] true).isSome :=
  C9_recursion_terminates [['_'], ['_', 'A', 'B']] (by decide) 17 (1, 0) (1, 0)
    [] true [] [] (by decide) (by decide) (by decide)

/-- Witness for C10 at the code `{123, 332}` and shift `2`. -/
theorem C10_shift_frame_witness :
    (shift ⟨"unknown", [['1','2','3'], ['3','3','2']], [3], ['1','2','3']⟩ 2).id =
      "unknown" ∧
    (shift ⟨"unknown", [['1','2','3'], ['3','3','2']], [3], ['1','2','3']⟩ 2).tuple_length =
      [3] ∧
    (shift ⟨"unknown", [['1','2','3'], ['3','3','2']], [3], ['1','2','3']⟩ 2).alphabet =
      ['1','2','3'] ∧
    (shift ⟨"unknown", [['1','2','3'], ['3','3','2']], [3], ['1','2','3']⟩ 2).code =
      [['1','2','3'], ['3','3','2']].map (shiftWord 2) := by
  have h := C10_shift_frame
    ⟨"unknown", [['1','2','3'], ['3','3','2']], [3], ['1','2','3']⟩ 2 (by decide)
  exact ⟨h.1, h.2.1, h.2.2.1, h.2.2.2.1⟩

end Gcat
